import Mathlib

/-!
Verification of the chemical-formula tokenizer/lexer/parser
(`chemical_formula.py`): a shallow embedding of the module's data model and
operations, followed by theorems settling the specification claims.

Modelling conventions:
* Python strings are Lean `String`s; `str.isalpha` / `str.isdecimal` are
  modelled over the ASCII ranges (`Char.isAlpha` / `Char.isDigit`), which is
  the character set the formula grammar uses.
* The regex `re.findall(r'[A-Z][a-z]?|\d+|[\[({})\]]', formula)` is modelled
  by an explicit left-to-right scanner (`scanFuel`).  The fuel argument is a
  termination device only; it is instantiated with the length of the input,
  which always suffices because every emitted token consumes at least one
  character.
* Exceptions are modelled with `Except`; mutation of the lexer cursor is
  modelled by explicitly threading the `Lexer` value, and a raised exception
  carries the lexer state at raise time (Python mutates the shared lexer in
  place, so state changes survive a raise).
* The recursion of `_parse_molecule`/`_parse_group` is modelled with a fuel
  parameter (`parseMG`); `parse_formula` supplies fuel `2 * #tokens + 2`,
  which is more than the recursion can consume.
-/

/-- Enumeration of the supported token types (`TokenType` in the source). -/
inductive TokenType where
  | ATOM
  | FACTOR
  | OPENING_BRACKET
  | CLOSING_BRACKET
  | EOF
deriving DecidableEq, Repr

/-- A token: its string value and its type (`Token` dataclass). -/
structure Token where
  value : String
  token_type : TokenType
deriving DecidableEq, Repr

/-- Error raised by `tokenize` on an unsupported token string
(`TokenizerException`). -/
structure TokenizerException where
  token : String
deriving DecidableEq, Repr

/-- Python `str.isalpha` restricted to ASCII: nonempty and all letters. -/
def pyIsAlpha (s : String) : Bool :=
  !s.data.isEmpty && s.data.all Char.isAlpha

/-- Python `str.isdecimal` restricted to ASCII: nonempty and all digits. -/
def pyIsDecimal (s : String) : Bool :=
  !s.data.isEmpty && s.data.all Char.isDigit

/-- The `tokenize` function: classifies a raw substring into a `Token`, or
fails with a `TokenizerException`.  The branch order mirrors the source:
empty, alphabetic, decimal, opening bracket, closing bracket, error. -/
def tokenize (token : String) : Except TokenizerException Token :=
  if token = "" then .ok ⟨token, TokenType.EOF⟩
  else if pyIsAlpha token then .ok ⟨token, TokenType.ATOM⟩
  else if pyIsDecimal token then .ok ⟨token, TokenType.FACTOR⟩
  else if token = "(" ∨ token = "\x7b" ∨ token = "[" then
    .ok ⟨token, TokenType.OPENING_BRACKET⟩
  else if token = ")" ∨ token = "\x7d" ∨ token = "]" then
    .ok ⟨token, TokenType.CLOSING_BRACKET⟩
  else .error ⟨token⟩

/-- Is `c` one of the six bracket characters of the lexical pattern? -/
def isBracketChar (c : Char) : Bool :=
  c = '[' || c = '(' || c = '\x7b' || c = '\x7d' || c = ')' || c = ']'

/-- Left-to-right scanner modelling
`re.findall(r'[A-Z][a-z]?|\d+|[\[({})\]]', formula)`: an uppercase letter
grabs one optional lowercase letter, a digit grabs the maximal digit run, a
bracket is a single-character token, and any other character is skipped
(producing no token).  `fuel` only forces termination; one unit is spent per
emitted token or skipped character. -/
def scanFuel : Nat → List Char → List String
  | 0, _ => []
  | _, [] => []
  | Nat.succ f, c :: cs =>
    if c.isUpper then
      match cs with
      | d :: ds =>
        if d.isLower then String.mk [c, d] :: scanFuel f ds
        else String.mk [c] :: scanFuel f cs
      | [] => [String.mk [c]]
    else if c.isDigit then
      String.mk (c :: cs.takeWhile Char.isDigit) ::
        scanFuel f (cs.dropWhile Char.isDigit)
    else if isBracketChar c then
      String.mk [c] :: scanFuel f cs
    else
      scanFuel f cs

/-- All raw token substrings of a formula, in order (the `re.findall` call in
`Lexer.__init__`). -/
def scanTokens (cs : List Char) : List String := scanFuel cs.length cs

/-- The lexer state: the immutable token list `_tokens` and the mutable
cursor `position`. -/
structure Lexer where
  tokens : List String
  position : Nat
deriving DecidableEq, Repr

/-- `Lexer.__init__`: scan the formula, cursor at 0. -/
def Lexer.init (formula : String) : Lexer :=
  ⟨scanTokens formula.data, 0⟩

/-- `Lexer.peek`: tokenize the substring at `position`; on `IndexError`
(position out of range) tokenize the empty string instead.  The cursor is not
modified (the embedding returns no updated lexer). -/
def Lexer.peek (l : Lexer) : Except TokenizerException Token :=
  match l.tokens[l.position]? with
  | some s => tokenize s
  | none => tokenize ""

/-- `Lexer.get_next_token`: peek, then advance the cursor.  If the peek
raises, the cursor is left unchanged (the exception aborts the method before
the increment). -/
def Lexer.get_next_token (l : Lexer) : Except TokenizerException Token × Lexer :=
  match l.peek with
  | .ok t => (.ok t, { l with position := l.position + 1 })
  | .error e => (.error e, l)

/-- Error raised by the parser on a grammar violation
(`ParsingException`): the offending token and the lexer position at raise
time. -/
structure ParsingException where
  token : Token
  position : Nat
deriving DecidableEq, Repr

/-- A parser-level outcome: a propagated `TokenizerException`, a
`ParsingException`, or exhaustion of the modelling fuel (never reached with
the fuel supplied by `Parser.parse_formula`). -/
inductive PError where
  | tokenizer : TokenizerException → PError
  | parsing : ParsingException → PError
  | outOfFuel : PError
deriving DecidableEq, Repr

/-- Intermediate results: a `collections.Counter`, modelled as an
insertion-ordered association list with unique keys. -/
abbrev Counter := List (String × Nat)

/-- `counter[key]` read access: `Counter.__missing__` returns 0 for an
absent key. -/
def cget (c : Counter) (k : String) : Nat :=
  match c with
  | [] => 0
  | kv :: rest => if kv.1 = k then kv.2 else cget rest k

/-- `counter[key] = v`: overwrite in place, or append a new key at the end
(dict insertion order). -/
def cset (c : Counter) (k : String) (v : Nat) : Counter :=
  match c with
  | [] => [(k, v)]
  | kv :: rest => if kv.1 = k then (k, v) :: rest else kv :: cset rest k v

/-- `Counter.update(other)` as used by `Counter.__iadd__`: for each entry of
`other`, `self[elem] = count + self[elem]`. -/
def cupdateAdd (c other : Counter) : Counter :=
  other.foldl (fun acc kv => cset acc kv.1 (kv.2 + cget acc kv.1)) c

/-- `Counter._keep_positive`: delete all entries with a non-positive
count. -/
def keepPositive (c : Counter) : Counter :=
  c.filter (fun kv => 0 < kv.2)

/-- `outer_counter += inner_counter` on `Counter`s (`Counter.__iadd__`):
update by addition, then keep only positive counts. -/
def ciadd (c other : Counter) : Counter :=
  keepPositive (cupdateAdd c other)

/-- The in-place multiplication loop of `_parse_group`:
`for key in counter: counter[key] = counter[key] * factor`. -/
def cmul (c : Counter) (n : Nat) : Counter :=
  c.map (fun kv => (kv.1, kv.2 * n))

/-- Python `int` on a decimal-digit string (the `int(token.value)` call in
`_parse_factor`; only ever applied to all-digit strings). -/
def digitsToNat (cs : List Char) : Nat :=
  cs.foldl (fun a c => a * 10 + (c.toNat - 48)) 0

/-- `Parser._parse_atom`: consume one token, yield `Counter({value: 1})`. -/
def parseAtomL (l : Lexer) : Except PError Counter × Lexer :=
  match l.get_next_token with
  | (.ok t, l') => (.ok [(t.value, 1)], l')
  | (.error e, l') => (.error (.tokenizer e), l')

/-- `Parser._parse_factor`: consume one token, return its integer value. -/
def parseFactorL (l : Lexer) : Except PError Nat × Lexer :=
  match l.get_next_token with
  | (.ok t, l') => (.ok (digitsToNat t.value.data), l')
  | (.error e, l') => (.error (.tokenizer e), l')

/-- `Parser._consume_opening_bracket`: consume one token without checking
it. -/
def consumeOpeningL (l : Lexer) : Except PError Unit × Lexer :=
  match l.get_next_token with
  | (.ok _, l') => (.ok (), l')
  | (.error e, l') => (.error (.tokenizer e), l')

/-- `Parser._consume_closing_bracket`: consume one token; raise a
`ParsingException` (with the already-advanced cursor position) unless its
kind is `CLOSING_BRACKET`.  Only the kind is checked, never the bracket
character. -/
def consumeClosingL (l : Lexer) : Except PError Unit × Lexer :=
  match l.get_next_token with
  | (.ok t, l') =>
    if t.token_type = TokenType.CLOSING_BRACKET then (.ok (), l')
    else (.error (.parsing ⟨t, l'.position⟩), l')
  | (.error e, l') => (.error (.tokenizer e), l')

/-- The optional-factor tail of `_parse_group` (lines 213-218): if the next
token is a `FACTOR`, consume it and, when it differs from 1, multiply every
count by it. -/
def applyFactorPart (c : Counter) (l : Lexer) : Except PError Counter × Lexer :=
  match l.peek with
  | .ok t =>
    if t.token_type = TokenType.FACTOR then
      match parseFactorL l with
      | (.ok n, l') => if n ≠ 1 then (.ok (cmul c n), l') else (.ok c, l')
      | (.error e, l') => (.error e, l')
    else (.ok c, l)
  | .error e => (.error (.tokenizer e), l)

/-- `Parser._parse_molecule` (tag `true`) and `Parser._parse_group`
(tag `false`), merged into one fuel-indexed function so that the mutual
recursion is structural on the fuel.

Molecule: require the next token to start a group (`ATOM` or
`OPENING_BRACKET`), parse one group and fold it into a fresh counter with
`+=`; if the next token again starts a group, parse a further molecule and
fold it in too.

Group: on `OPENING_BRACKET`, consume it, parse a molecule, require a
`CLOSING_BRACKET`, then the optional factor; on `ATOM`, parse the atom, then
the optional factor; anything else raises at the current position. -/
def parseMG : Nat → Bool → Lexer → Except PError Counter × Lexer
  | 0, _, l => (.error .outOfFuel, l)
  | Nat.succ f, true, l =>
    match l.peek with
    | .error e => (.error (.tokenizer e), l)
    | .ok t =>
      if t.token_type = TokenType.OPENING_BRACKET ∨ t.token_type = TokenType.ATOM then
        match parseMG f false l with
        | (.error e, l₁) => (.error e, l₁)
        | (.ok g, l₁) =>
          match l₁.peek with
          | .error e => (.error (.tokenizer e), l₁)
          | .ok t₂ =>
            if t₂.token_type = TokenType.OPENING_BRACKET ∨ t₂.token_type = TokenType.ATOM then
              match parseMG f true l₁ with
              | (.error e, l₂) => (.error e, l₂)
              | (.ok m, l₂) => (.ok (ciadd (ciadd [] g) m), l₂)
            else (.ok (ciadd [] g), l₁)
      else (.error (.parsing ⟨t, l.position⟩), l)
  | Nat.succ f, false, l =>
    match l.peek with
    | .error e => (.error (.tokenizer e), l)
    | .ok t =>
      if t.token_type = TokenType.OPENING_BRACKET then
        match consumeOpeningL l with
        | (.error e, l₁) => (.error e, l₁)
        | (.ok _, l₁) =>
          match parseMG f true l₁ with
          | (.error e, l₂) => (.error e, l₂)
          | (.ok c, l₂) =>
            match consumeClosingL l₂ with
            | (.error e, l₃) => (.error e, l₃)
            | (.ok _, l₃) => applyFactorPart c l₃
      else if t.token_type = TokenType.ATOM then
        match parseAtomL l with
        | (.error e, l₁) => (.error e, l₁)
        | (.ok c, l₁) => applyFactorPart c l₁
      else (.error (.parsing ⟨t, l.position⟩), l)

/-- `Parser._parse_molecule`, at the given fuel. -/
def parseMoleculeL (f : Nat) (l : Lexer) : Except PError Counter × Lexer :=
  parseMG f true l

/-- `Parser._parse_group`, at the given fuel. -/
def parseGroupL (f : Nat) (l : Lexer) : Except PError Counter × Lexer :=
  parseMG f false l

/-- Fuel supplied to the recursive descent: generously more than the
recursion depth reachable from `l` (each molecule-group round trip consumes
at least one token). -/
def formulaFuel (l : Lexer) : Nat := 2 * l.tokens.length + 2

/-- The parser state: the owned lexer and the memoized result
(`self._result`, initially `None`). -/
structure Parser where
  lexer : Lexer
  result : Option Counter
deriving DecidableEq, Repr

/-- `Parser.__init__`. -/
def Parser.init (l : Lexer) : Parser := ⟨l, none⟩

/-- `Parser.parse_formula`: if a result is memoized return it; otherwise
parse one molecule, store the resulting dict in `self._result`, then require
the next token to be `EOF` and raise otherwise.  Note that the result is
stored *before* the EOF check, and that a failure inside `_parse_molecule`
leaves `self._result` unset while the lexer stays advanced. -/
def Parser.parse_formula (p : Parser) : Except PError Counter × Parser :=
  match p.result with
  | some r => (.ok r, p)
  | none =>
    match parseMoleculeL (formulaFuel p.lexer) p.lexer with
    | (.error e, l') => (.error e, ⟨l', none⟩)
    | (.ok c, l') =>
      match l'.peek with
      | .error e => (.error (.tokenizer e), ⟨l', some c⟩)
      | .ok t =>
        if t.token_type = TokenType.EOF then (.ok c, ⟨l', some c⟩)
        else (.error (.parsing ⟨t, l'.position⟩), ⟨l', some c⟩)

/-- One-shot convenience: the outcome of `Parser(Lexer(s)).parse_formula()`
on a fresh lexer/parser pair. -/
def parseFormulaStr (s : String) : Except PError Counter :=
  (Parser.parse_formula (Parser.init (Lexer.init s))).1

/-! ### Character-class facts -/

/-- A decimal digit is not an ASCII letter. -/
theorem char_isDigit_not_isAlpha {c : Char} (h : c.isDigit = true) : c.isAlpha = false := by
  simp only [Char.isDigit, Char.isAlpha, Char.isUpper, Char.isLower, Bool.and_eq_true,
    decide_eq_true_eq, Bool.or_eq_false_iff, Bool.and_eq_false_iff,
    decide_eq_false_iff_not, not_le, ge_iff_le] at h ⊢
  obtain ⟨h1, h2⟩ := h
  rw [UInt32.le_def, BitVec.le_def] at h1 h2
  simp only [UInt32.lt_def, BitVec.lt_def, UInt32.le_def, BitVec.le_def]
  norm_num at h1 h2 ⊢
  omega

/-- An uppercase letter is a letter. -/
theorem char_isUpper_isAlpha {c : Char} (h : c.isUpper = true) : c.isAlpha = true := by
  simp [Char.isAlpha, h]

/-- A lowercase letter is a letter. -/
theorem char_isLower_isAlpha {c : Char} (h : c.isLower = true) : c.isAlpha = true := by
  simp [Char.isAlpha, h]

/-- Bracket characters are six concrete characters. -/
theorem isBracketChar_cases {c : Char} (h : isBracketChar c = true) :
    c = '[' ∨ c = '(' ∨ c = '\x7b' ∨ c = '\x7d' ∨ c = ')' ∨ c = ']' := by
  simp only [isBracketChar, Bool.or_eq_true, decide_eq_true_eq] at h
  tauto

/-- A bracket character is not a letter. -/
theorem isBracketChar_not_isAlpha {c : Char} (h : isBracketChar c = true) : c.isAlpha = false := by
  rcases isBracketChar_cases h with h' | h' | h' | h' | h' | h' <;> subst h' <;> decide

/-- A bracket character is not a digit. -/
theorem isBracketChar_not_isDigit {c : Char} (h : isBracketChar c = true) : c.isDigit = false := by
  rcases isBracketChar_cases h with h' | h' | h' | h' | h' | h' <;> subst h' <;> decide

/-! ### Facts about `tokenize` -/

/-- A string is empty iff its character list is. -/
theorem string_eq_empty_iff {s : String} : s = "" ↔ s.data = [] := by
  constructor
  · intro h; subst h; rfl
  · intro h; cases s; simp_all

/-- An all-alphabetic (nonempty) string is classified as `ATOM`. -/
theorem tokenize_alpha {s : String} (h : pyIsAlpha s = true) :
    tokenize s = .ok ⟨s, TokenType.ATOM⟩ := by
  have hne : ¬s = "" := by
    intro he; subst he; simp [pyIsAlpha] at h
  simp [tokenize, hne, h]

/-- An all-decimal (nonempty) string is not all-alphabetic. -/
theorem pyIsDecimal_not_pyIsAlpha {s : String} (h : pyIsDecimal s = true) :
    pyIsAlpha s = false := by
  cases hd : s.data with
  | nil => simp [pyIsAlpha, hd]
  | cons c cs =>
    simp only [pyIsDecimal, hd, Bool.and_eq_true, List.all_eq_true] at h
    have hc : c.isDigit = true := h.2 c (List.mem_cons_self c cs)
    simp [pyIsAlpha, hd, char_isDigit_not_isAlpha hc]

/-- An all-decimal (nonempty) string is classified as `FACTOR`. -/
theorem tokenize_decimal {s : String} (h : pyIsDecimal s = true) :
    tokenize s = .ok ⟨s, TokenType.FACTOR⟩ := by
  have hne : ¬s = "" := by
    intro he; subst he; simp [pyIsDecimal] at h
  simp [tokenize, hne, pyIsDecimal_not_pyIsAlpha h, h]

/-- Inversion: a successful `tokenize` returns the input string as the
token's value. -/
theorem tokenize_ok_value {s : String} {t : Token} (h : tokenize s = .ok t) :
    t.value = s := by
  unfold tokenize at h
  split at h
  · cases Except.ok.inj h; rfl
  · split at h
    · cases Except.ok.inj h; rfl
    · split at h
      · cases Except.ok.inj h; rfl
      · split at h
        · cases Except.ok.inj h; rfl
        · split at h
          · cases Except.ok.inj h; rfl
          · cases h

/-- Inversion: a token classified as `ATOM` came from an all-alphabetic
string. -/
theorem tokenize_ok_atom {s : String} {t : Token} (h : tokenize s = .ok t)
    (hk : t.token_type = TokenType.ATOM) : pyIsAlpha s = true := by
  unfold tokenize at h
  split at h
  · cases Except.ok.inj h; cases hk
  · split at h
    · assumption
    · split at h
      · cases Except.ok.inj h; cases hk
      · split at h
        · cases Except.ok.inj h; cases hk
        · split at h
          · cases Except.ok.inj h; cases hk
          · cases h

/-- Inversion: a token classified as `EOF` came from the empty string. -/
theorem tokenize_ok_eof {s : String} {t : Token} (h : tokenize s = .ok t)
    (hk : t.token_type = TokenType.EOF) : s = "" := by
  unfold tokenize at h
  split at h
  · assumption
  · split at h
    · cases Except.ok.inj h; cases hk
    · split at h
      · cases Except.ok.inj h; cases hk
      · split at h
        · cases Except.ok.inj h; cases hk
        · split at h
          · cases Except.ok.inj h; cases hk
          · cases h

/-! ### Facts about the scanner -/

/-- A digit is not uppercase. -/
theorem char_isDigit_not_isUpper {c : Char} (h : c.isDigit = true) : c.isUpper = false := by
  have := char_isDigit_not_isAlpha h
  simp only [Char.isAlpha, Bool.or_eq_false_iff] at this
  exact this.1

/-- Scanning the empty character list yields no tokens, at any fuel. -/
theorem scanFuel_nil (f : Nat) : scanFuel f [] = [] := by cases f <;> rfl

/-- Unfolding equation for the scanner at successor fuel on a nonempty
list. -/
theorem scanFuel_succ_cons (f : Nat) (c : Char) (cs : List Char) :
    scanFuel (f + 1) (c :: cs) =
      (if c.isUpper then
        match cs with
        | d :: ds =>
          if d.isLower then String.mk [c, d] :: scanFuel f ds
          else String.mk [c] :: scanFuel f cs
        | [] => [String.mk [c]]
      else if c.isDigit then
        String.mk (c :: cs.takeWhile Char.isDigit) ::
          scanFuel f (cs.dropWhile Char.isDigit)
      else if isBracketChar c then
        String.mk [c] :: scanFuel f cs
      else
        scanFuel f cs) := rfl

/-- The scanner's result does not depend on the fuel, provided the fuel is
at least the input length. -/
theorem scanFuel_eq_of_le : ∀ (f g : Nat) (cs : List Char), cs.length ≤ f → cs.length ≤ g →
    scanFuel f cs = scanFuel g cs := by
  intro f
  induction f with
  | zero =>
    intro g cs hf _
    have : cs = [] := List.eq_nil_of_length_eq_zero (Nat.le_zero.mp hf)
    subst this
    rw [scanFuel_nil, scanFuel_nil]
  | succ f ih =>
    intro g cs hf hg
    cases cs with
    | nil => rw [scanFuel_nil, scanFuel_nil]
    | cons c cs' =>
      cases g with
      | zero => simp at hg
      | succ g' =>
        simp only [List.length_cons, Nat.add_le_add_iff_right] at hf hg
        rw [scanFuel_succ_cons, scanFuel_succ_cons]
        by_cases hu : c.isUpper = true
        · rw [if_pos hu, if_pos hu]
          cases cs' with
          | nil => rfl
          | cons d ds =>
            simp only [List.length_cons] at hf hg
            dsimp only
            by_cases hl : d.isLower = true
            · rw [if_pos hl, if_pos hl, ih g' ds (by omega) (by omega)]
            · rw [if_neg hl, if_neg hl, ih g' (d :: ds) (by simp; omega) (by simp; omega)]
        · rw [if_neg hu, if_neg hu]
          by_cases hd : c.isDigit = true
          · have hlen : (cs'.dropWhile Char.isDigit).length ≤ cs'.length :=
              (List.dropWhile_sublist Char.isDigit).length_le
            rw [if_pos hd, if_pos hd,
              ih g' (cs'.dropWhile Char.isDigit) (by omega) (by omega)]
          · rw [if_neg hd, if_neg hd]
            by_cases hb : isBracketChar c = true
            · rw [if_pos hb, if_pos hb, ih g' cs' hf hg]
            · rw [if_neg hb, if_neg hb]
              exact ih g' cs' hf hg

/-- Characters matched by no alternative of the lexical pattern are dropped:
they produce no token. -/
theorem scanTokens_skip {c : Char} {cs : List Char} (hu : c.isUpper = false)
    (hd : c.isDigit = false) (hb : isBracketChar c = false) :
    scanTokens (c :: cs) = scanTokens cs := by
  show scanFuel (cs.length + 1) (c :: cs) = scanTokens cs
  rw [scanFuel_succ_cons]
  simp only [hu, hd, hb, if_false]
  rfl

/-- Every substring emitted by the scanner has one of the four lexical
shapes of the pattern: a single uppercase letter, an uppercase letter
followed by a lowercase letter, a nonempty digit run, or a single bracket
character. -/
theorem scanFuel_shapes : ∀ (f : Nat) (cs : List Char) (s : String), s ∈ scanFuel f cs →
    (∃ c, s = String.mk [c] ∧ c.isUpper = true) ∨
    (∃ c d, s = String.mk [c, d] ∧ c.isUpper = true ∧ d.isLower = true) ∨
    (s.data ≠ [] ∧ s.data.all Char.isDigit = true) ∨
    (∃ c, s = String.mk [c] ∧ isBracketChar c = true) := by
  intro f
  induction f with
  | zero => intro cs s hs; simp [scanFuel] at hs
  | succ f ih =>
    intro cs s hs
    cases cs with
    | nil => rw [scanFuel_nil] at hs; cases hs
    | cons c cs' =>
      rw [scanFuel_succ_cons] at hs
      by_cases hu : c.isUpper = true
      · rw [if_pos hu] at hs
        cases cs' with
        | nil =>
          rcases List.mem_singleton.mp hs with rfl
          exact Or.inl ⟨c, rfl, hu⟩
        | cons d ds =>
          dsimp only at hs
          by_cases hl : d.isLower = true
          · rw [if_pos hl] at hs
            rcases List.mem_cons.mp hs with rfl | hmem
            · exact Or.inr (Or.inl ⟨c, d, rfl, hu, hl⟩)
            · exact ih ds s hmem
          · rw [if_neg hl] at hs
            rcases List.mem_cons.mp hs with rfl | hmem
            · exact Or.inl ⟨c, rfl, hu⟩
            · exact ih (d :: ds) s hmem
      · rw [if_neg hu] at hs
        by_cases hd : c.isDigit = true
        · rw [if_pos hd] at hs
          rcases List.mem_cons.mp hs with rfl | hmem
          · refine Or.inr (Or.inr (Or.inl ⟨by simp, ?_⟩))
            simp only [List.all_eq_true]
            intro x hx
            rcases List.mem_cons.mp hx with rfl | hx'
            · exact hd
            · exact List.mem_takeWhile_imp hx'
          · exact ih _ s hmem
        · rw [if_neg hd] at hs
          by_cases hb : isBracketChar c = true
          · rw [if_pos hb] at hs
            rcases List.mem_cons.mp hs with rfl | hmem
            · exact Or.inr (Or.inr (Or.inr ⟨c, rfl, hb⟩))
            · exact ih cs' s hmem
          · rw [if_neg hb] at hs
            exact ih cs' s hs

/-- Scanning a nonempty all-digit list yields that list as a single
token. -/
theorem scanTokens_digits {cs : List Char} (hne : cs ≠ [])
    (hall : cs.all Char.isDigit = true) : scanTokens cs = [String.mk cs] := by
  cases cs with
  | nil => exact absurd rfl hne
  | cons c cs' =>
    simp only [List.all_cons, Bool.and_eq_true] at hall
    show scanFuel (cs'.length + 1) (c :: cs') = _
    rw [scanFuel_succ_cons, if_neg (by simp [char_isDigit_not_isUpper hall.1]),
      if_pos hall.1]
    rw [List.takeWhile_eq_self_iff.mpr (by intro x hx; exact (List.all_eq_true.mp hall.2) x hx)]
    rw [List.dropWhile_eq_nil_iff.mpr (by intro x hx; exact (List.all_eq_true.mp hall.2) x hx)]
    rw [scanFuel_nil]

/-- Splitting `takeWhile`/`dropWhile` at an append boundary whose right part
does not start with a `p`-character. -/
theorem takeWhile_dropWhile_append {p : Char → Bool} :
    ∀ (xs ys : List Char), xs.all p = true →
    (∀ y, ys.head? = some y → p y = false) →
    (xs ++ ys).takeWhile p = xs ∧ (xs ++ ys).dropWhile p = ys := by
  intro xs
  induction xs with
  | nil =>
    intro ys _ hy
    cases ys with
    | nil => exact ⟨rfl, rfl⟩
    | cons y ys' =>
      have hpy : p y = false := hy y rfl
      constructor
      · simp [List.takeWhile_cons, hpy]
      · simp [List.dropWhile_cons, hpy]
  | cons x xs' ih =>
    intro ys hall hy
    simp only [List.all_cons, Bool.and_eq_true] at hall
    have := ih ys hall.2 hy
    constructor
    · simp [List.takeWhile_cons, hall.1, this.1]
    · simp [List.dropWhile_cons, hall.1, this.2]

/-- Boundary condition for splitting a scan at an append: the right part
must not start with a lowercase letter (which could extend an atom) nor a
digit (which could extend a factor). -/
def scanBoundaryOk (ds : List Char) : Prop :=
  ∀ d, ds.head? = some d → d.isLower = false ∧ d.isDigit = false

/-- The scan of an append splits at the boundary when the right part cannot
extend a token of the left part. -/
theorem scanFuel_append : ∀ (f : Nat) (cs ds : List Char),
    cs.length + ds.length ≤ f → scanBoundaryOk ds →
    scanFuel f (cs ++ ds) = scanFuel f cs ++ scanTokens ds := by
  intro f
  induction f with
  | zero =>
    intro cs ds hf _
    have hcs : cs = [] := List.eq_nil_of_length_eq_zero (by omega)
    have hds : ds = [] := List.eq_nil_of_length_eq_zero (by omega)
    subst hcs; subst hds; rfl
  | succ f ih =>
    intro cs ds hf hb
    cases cs with
    | nil =>
      rw [List.nil_append, scanFuel_nil, List.nil_append]
      exact scanFuel_eq_of_le (f + 1) ds.length ds (by simpa using hf) (Nat.le_refl _)
    | cons c cs' =>
      simp only [List.length_cons] at hf
      rw [List.cons_append, scanFuel_succ_cons, scanFuel_succ_cons]
      by_cases hu : c.isUpper = true
      · rw [if_pos hu, if_pos hu]
        cases cs' with
        | nil =>
          rw [List.nil_append]
          cases ds with
          | nil => rfl
          | cons d ds' =>
            have hd := hb d rfl
            dsimp only
            rw [if_neg (by simp [hd.1])]
            show _ = [String.mk [c]] ++ scanTokens (d :: ds')
            rw [scanFuel_eq_of_le f (d :: ds').length (d :: ds') (by simp at hf ⊢; omega)
              (Nat.le_refl _)]
            rfl
        | cons e rest =>
          rw [List.cons_append]
          dsimp only
          simp only [List.length_cons] at hf
          by_cases hl : e.isLower = true
          · rw [if_pos hl, if_pos hl, ih rest ds (by omega) hb]
            rfl
          · rw [if_neg hl, if_neg hl, ← List.cons_append, ih (e :: rest) ds (by simp; omega) hb]
            rfl
      · rw [if_neg hu, if_neg hu]
        by_cases hd : c.isDigit = true
        · rw [if_pos hd, if_pos hd]
          have hsplit := List.takeWhile_append_dropWhile Char.isDigit cs'
          have htw : ∀ x ∈ cs'.takeWhile Char.isDigit, Char.isDigit x = true :=
            fun x hx => List.mem_takeWhile_imp hx
          cases hrest : cs'.dropWhile Char.isDigit with
          | nil =>
            have hcs' : List.takeWhile Char.isDigit cs' = cs' := by
              rw [hrest, List.append_nil] at hsplit
              exact hsplit
            have hall : cs'.all Char.isDigit = true := by
              rw [List.all_eq_true]
              intro x hx
              rw [← hcs'] at hx
              exact htw x hx
            have h1 := @takeWhile_dropWhile_append Char.isDigit cs' ds
              hall (fun y hy => (hb y hy).2)
            rw [h1.1, h1.2, hcs', scanFuel_nil,
              scanFuel_eq_of_le f ds.length ds (by omega) (Nat.le_refl _)]
            rfl
          | cons b rest' =>
            have hpb : Char.isDigit b = false := by
              have := List.head?_dropWhile_not Char.isDigit cs'
              rw [hrest] at this
              simpa using this
            have hlen : (b :: rest').length ≤ cs'.length := by
              rw [← hrest]
              exact (List.dropWhile_sublist Char.isDigit).length_le
            have h1 := @takeWhile_dropWhile_append Char.isDigit
              (cs'.takeWhile Char.isDigit) ((b :: rest') ++ ds)
              (by rw [List.all_eq_true]; exact htw)
              (by intro y hy; rw [List.cons_append] at hy; cases hy; exact hpb)
            have hcd : cs' ++ ds = List.takeWhile Char.isDigit cs' ++ ((b :: rest') ++ ds) := by
              rw [← List.append_assoc, ← hrest, hsplit]
            have h2 : List.takeWhile Char.isDigit (cs' ++ ds) =
                List.takeWhile Char.isDigit cs' := by rw [hcd]; exact h1.1
            have h3 : List.dropWhile Char.isDigit (cs' ++ ds) = (b :: rest') ++ ds := by
              rw [hcd]; exact h1.2
            rw [h2, h3, ih (b :: rest') ds
              (by simp only [List.length_cons] at hlen ⊢; omega) hb]
            rfl
        · rw [if_neg hd, if_neg hd]
          by_cases hbr : isBracketChar c = true
          · rw [if_pos hbr, if_pos hbr, ih cs' ds (by omega) hb]
            rfl
          · rw [if_neg hbr, if_neg hbr]
            exact ih cs' ds (by omega) hb

/-- Token-list form of the boundary split, at the canonical fuel. -/
theorem scanTokens_append {cs ds : List Char} (hb : scanBoundaryOk ds) :
    scanTokens (cs ++ ds) = scanTokens cs ++ scanTokens ds := by
  show scanFuel (cs ++ ds).length (cs ++ ds) = _
  rw [List.length_append, scanFuel_append (cs.length + ds.length) cs ds (Nat.le_refl _) hb,
    scanFuel_eq_of_le (cs.length + ds.length) cs.length cs (by omega) (Nat.le_refl _)]
  rfl

/-- Every substring produced by the scanner tokenizes successfully, to a
token whose value is that substring and whose kind is never `EOF`. -/
theorem scanTokens_tokenize_ok {cs : List Char} {s : String} (hs : s ∈ scanTokens cs) :
    ∃ t : Token, tokenize s = .ok t ∧ t.value = s ∧ t.token_type ≠ TokenType.EOF := by
  rcases scanFuel_shapes cs.length cs s hs with
    ⟨c, rfl, hu⟩ | ⟨c, d, rfl, hu, hl⟩ | ⟨hne, hall⟩ | ⟨c, rfl, hb⟩
  · have halpha : pyIsAlpha (String.mk [c]) = true := by
      simp [pyIsAlpha, char_isUpper_isAlpha hu]
    exact ⟨_, tokenize_alpha halpha, rfl, by simp⟩
  · have halpha : pyIsAlpha (String.mk [c, d]) = true := by
      simp [pyIsAlpha, char_isUpper_isAlpha hu, char_isLower_isAlpha hl]
    exact ⟨_, tokenize_alpha halpha, rfl, by simp⟩
  · have hdec : pyIsDecimal s = true := by
      cases hd : s.data with
      | nil => exact absurd hd hne
      | cons c cs' =>
        rw [hd] at hall
        simp [pyIsDecimal, hd, hall]
    exact ⟨_, tokenize_decimal hdec, rfl, by simp⟩
  · rcases isBracketChar_cases hb with h' | h' | h' | h' | h' | h' <;> subst h'
    · exact ⟨⟨"[", TokenType.OPENING_BRACKET⟩, rfl, rfl, by simp⟩
    · exact ⟨⟨"(", TokenType.OPENING_BRACKET⟩, rfl, rfl, by simp⟩
    · exact ⟨⟨"\x7b", TokenType.OPENING_BRACKET⟩, rfl, rfl, by simp⟩
    · exact ⟨⟨"\x7d", TokenType.CLOSING_BRACKET⟩, rfl, rfl, by simp⟩
    · exact ⟨⟨")", TokenType.CLOSING_BRACKET⟩, rfl, rfl, by simp⟩
    · exact ⟨⟨"]", TokenType.CLOSING_BRACKET⟩, rfl, rfl, by simp⟩

/-! ### Facts about the lexer cursor -/

/-- Peeking within range tokenizes the backing substring at the cursor. -/
theorem lexer_peek_lt {T : List String} {p : Nat} (h : p < T.length) :
    Lexer.peek ⟨T, p⟩ = tokenize T[p] := by
  unfold Lexer.peek
  rw [List.getElem?_eq_getElem h]

/-- Peeking out of range synthesizes the end-of-input token. -/
theorem lexer_peek_ge {T : List String} {p : Nat} (h : T.length ≤ p) :
    Lexer.peek ⟨T, p⟩ = .ok ⟨"", TokenType.EOF⟩ := by
  unfold Lexer.peek
  rw [List.getElem?_eq_none h]
  rfl

/-- A successful peek at a token whose kind is not `EOF` implies the cursor
is in range and the token tokenizes from the backing substring there. -/
theorem lexer_peek_ok_ne_eof {T : List String} {p : Nat} {t : Token}
    (h : Lexer.peek ⟨T, p⟩ = .ok t) (hk : t.token_type ≠ TokenType.EOF) :
    p < T.length ∧ tokenize T[p]! = .ok t := by
  by_cases hp : p < T.length
  · refine ⟨hp, ?_⟩
    rw [lexer_peek_lt hp] at h
    rwa [getElem!_pos T p hp]
  · rw [lexer_peek_ge (by omega)] at h
    cases Except.ok.inj h
    exact absurd rfl hk

/-! ### Counter algebra -/

/-- Entries surviving `_keep_positive` have positive counts. -/
theorem keepPositive_pos {c : Counter} {kv : String × Nat} (h : kv ∈ keepPositive c) :
    0 < kv.2 := by
  have := List.of_mem_filter h
  simpa using this

/-- Entries of a `+=` result have positive counts. -/
theorem ciadd_pos {a b : Counter} {kv : String × Nat} (h : kv ∈ ciadd a b) : 0 < kv.2 :=
  keepPositive_pos h

/-- Keys after `counter[key] = v`: unchanged if the key is present, appended
otherwise. -/
theorem cset_keys (c : Counter) (k : String) (v : Nat) :
    (cset c k v).map Prod.fst =
      if k ∈ c.map Prod.fst then c.map Prod.fst else c.map Prod.fst ++ [k] := by
  induction c with
  | nil => simp [cset]
  | cons kv rest ih =>
    by_cases hk : kv.1 = k
    · simp [cset, hk]
    · by_cases hmem : k ∈ rest.map Prod.fst
      · simp [cset, hk, ih, hmem, Ne.symm hk]
      · simp [cset, hk, ih, hmem, Ne.symm hk]

/-- `counter[key] = v` preserves uniqueness of keys. -/
theorem cset_nodupKeys {c : Counter} {k : String} {v : Nat}
    (h : (c.map Prod.fst).Nodup) : ((cset c k v).map Prod.fst).Nodup := by
  rw [cset_keys]
  split
  · exact h
  · rw [List.nodup_append]
    exact ⟨h, List.nodup_singleton k,
      fun x hx hk => by rw [List.mem_singleton.mp hk] at hx; exact ‹k ∉ _› hx⟩

/-- `Counter.update` preserves uniqueness of keys. -/
theorem cupdateAdd_nodupKeys {b : Counter} : ∀ {a : Counter},
    (a.map Prod.fst).Nodup → ((cupdateAdd a b).map Prod.fst).Nodup := by
  induction b with
  | nil => intro a h; exact h
  | cons kv rest ih => intro a h; exact ih (cset_nodupKeys h)

/-- `_keep_positive` preserves uniqueness of keys. -/
theorem keepPositive_nodupKeys {c : Counter} (h : (c.map Prod.fst).Nodup) :
    ((keepPositive c).map Prod.fst).Nodup :=
  List.Nodup.sublist (List.Sublist.map Prod.fst (List.filter_sublist c)) h

/-- `+=` preserves uniqueness of keys. -/
theorem ciadd_nodupKeys {a b : Counter} (h : (a.map Prod.fst).Nodup) :
    ((ciadd a b).map Prod.fst).Nodup :=
  keepPositive_nodupKeys (cupdateAdd_nodupKeys h)

/-- A key of `cset c k v` is a key of `c` or is `k`. -/
theorem cset_keys_mem {c : Counter} {k : String} {v : Nat} {x : String}
    (h : x ∈ (cset c k v).map Prod.fst) : x ∈ c.map Prod.fst ∨ x = k := by
  rw [cset_keys] at h
  split at h
  · exact Or.inl h
  · rcases List.mem_append.mp h with h' | h'
    · exact Or.inl h'
    · exact Or.inr (List.mem_singleton.mp h')

/-- A key of `Counter.update` comes from one of the operands. -/
theorem cupdateAdd_keys_mem {b : Counter} : ∀ {a : Counter} {x : String},
    x ∈ (cupdateAdd a b).map Prod.fst → x ∈ a.map Prod.fst ∨ x ∈ b.map Prod.fst := by
  induction b with
  | nil => intro a x h; exact Or.inl h
  | cons kv rest ih =>
    intro a x h
    rcases ih h with h' | h'
    · rcases cset_keys_mem h' with h'' | h''
      · exact Or.inl h''
      · exact Or.inr (by simp [h''])
    · exact Or.inr (List.mem_cons_of_mem _ h')

/-- A key of a `+=` result comes from one of the operands. -/
theorem ciadd_keys_mem {a b : Counter} {x : String}
    (h : x ∈ (ciadd a b).map Prod.fst) : x ∈ a.map Prod.fst ∨ x ∈ b.map Prod.fst := by
  unfold ciadd keepPositive at h
  rcases List.mem_map.mp h with ⟨kv, hkv, rfl⟩
  exact cupdateAdd_keys_mem (List.mem_map_of_mem Prod.fst (List.mem_of_mem_filter hkv))

/-- The keys of the multiplication loop's result are those of its input. -/
theorem cmul_keys (c : Counter) (n : Nat) :
    (cmul c n).map Prod.fst = c.map Prod.fst := by
  induction c with
  | nil => rfl
  | cons kv rest ih => simp [cmul]

/-- Reading an absent key yields 0. -/
theorem cget_of_not_mem {c : Counter} {k : String} (h : k ∉ c.map Prod.fst) :
    cget c k = 0 := by
  induction c with
  | nil => rfl
  | cons kv rest ih =>
    have hk : ¬kv.1 = k := fun he => h (by simp [he])
    simp only [cget, if_neg hk]
    exact ih (fun hm => h (List.mem_cons_of_mem _ hm))

/-- Writing an absent key appends the new entry. -/
theorem cset_of_not_mem {c : Counter} {k : String} {v : Nat}
    (h : k ∉ c.map Prod.fst) : cset c k v = c ++ [(k, v)] := by
  induction c with
  | nil => rfl
  | cons kv rest ih =>
    have hk : ¬kv.1 = k := fun he => h (by simp [he])
    simp only [cset, if_neg hk, List.cons_append, List.cons.injEq, true_and]
    exact ih (fun hm => h (List.mem_cons_of_mem _ hm))

/-- `Counter.update` of a fresh-keyed counter into a disjoint one is plain
concatenation. -/
theorem cupdateAdd_eq_append {x : Counter} : ∀ {pre : Counter},
    (((pre ++ x).map Prod.fst).Nodup) → cupdateAdd pre x = pre ++ x := by
  induction x with
  | nil => intro pre _; simp [cupdateAdd]
  | cons kv rest ih =>
    intro pre h
    have hknotin : kv.1 ∉ pre.map Prod.fst := by
      intro hmem
      rw [List.map_append, List.nodup_append] at h
      exact h.2.2 hmem (by simp)
    have hstep : cset pre kv.1 (kv.2 + cget pre kv.1) = pre ++ [kv] := by
      rw [cget_of_not_mem hknotin, cset_of_not_mem hknotin, Nat.add_zero]
    show cupdateAdd (cset pre kv.1 (kv.2 + cget pre kv.1)) rest = pre ++ kv :: rest
    rw [hstep, ih (by simpa using h), List.append_assoc]
    rfl

/-- `_keep_positive` is the identity on counters with positive counts. -/
theorem keepPositive_eq_self {c : Counter} (h : ∀ kv ∈ c, 0 < kv.2) :
    keepPositive c = c :=
  List.filter_eq_self.mpr (fun kv hkv => by simpa using h kv hkv)

/-- `Counter() += x` returns `x` itself when `x` has unique keys and
positive counts. -/
theorem ciadd_nil {x : Counter} (hnodup : (x.map Prod.fst).Nodup)
    (hpos : ∀ kv ∈ x, 0 < kv.2) : ciadd [] x = x := by
  unfold ciadd
  rw [@cupdateAdd_eq_append x [] (by simpa using hnodup)]
  simpa using keepPositive_eq_self hpos

/-- Multiplying by 1 is the identity (the code skips it anyway). -/
theorem cmul_one (c : Counter) : cmul c 1 = c := by
  induction c with
  | nil => rfl
  | cons kv rest ih => simp [cmul]

/-! ### Parser unfolding equations and helper characterizations -/

/-- Unfolding `_parse_molecule` at successor fuel. -/
theorem parseMG_succ_true (f : Nat) (l : Lexer) :
    parseMG (f + 1) true l =
      (match l.peek with
      | .error e => (.error (.tokenizer e), l)
      | .ok t =>
        if t.token_type = TokenType.OPENING_BRACKET ∨ t.token_type = TokenType.ATOM then
          match parseMG f false l with
          | (.error e, l₁) => (.error e, l₁)
          | (.ok g, l₁) =>
            match l₁.peek with
            | .error e => (.error (.tokenizer e), l₁)
            | .ok t₂ =>
              if t₂.token_type = TokenType.OPENING_BRACKET ∨
                  t₂.token_type = TokenType.ATOM then
                match parseMG f true l₁ with
                | (.error e, l₂) => (.error e, l₂)
                | (.ok m, l₂) => (.ok (ciadd (ciadd [] g) m), l₂)
              else (.ok (ciadd [] g), l₁)
        else (.error (.parsing ⟨t, l.position⟩), l)) := rfl

/-- Unfolding `_parse_group` at successor fuel. -/
theorem parseMG_succ_false (f : Nat) (l : Lexer) :
    parseMG (f + 1) false l =
      (match l.peek with
      | .error e => (.error (.tokenizer e), l)
      | .ok t =>
        if t.token_type = TokenType.OPENING_BRACKET then
          match consumeOpeningL l with
          | (.error e, l₁) => (.error e, l₁)
          | (.ok _, l₁) =>
            match parseMG f true l₁ with
            | (.error e, l₂) => (.error e, l₂)
            | (.ok c, l₂) =>
              match consumeClosingL l₂ with
              | (.error e, l₃) => (.error e, l₃)
              | (.ok _, l₃) => applyFactorPart c l₃
        else if t.token_type = TokenType.ATOM then
          match parseAtomL l with
          | (.error e, l₁) => (.error e, l₁)
          | (.ok c, l₁) => applyFactorPart c l₁
        else (.error (.parsing ⟨t, l.position⟩), l)) := rfl

/-- `_parse_atom` after a successful peek. -/
theorem parseAtomL_eq {l : Lexer} {t : Token} (h : l.peek = .ok t) :
    parseAtomL l = (.ok [(t.value, 1)], ⟨l.tokens, l.position + 1⟩) := by
  simp only [parseAtomL, Lexer.get_next_token, h]

/-- `_parse_factor` after a successful peek. -/
theorem parseFactorL_eq {l : Lexer} {t : Token} (h : l.peek = .ok t) :
    parseFactorL l = (.ok (digitsToNat t.value.data), ⟨l.tokens, l.position + 1⟩) := by
  simp only [parseFactorL, Lexer.get_next_token, h]

/-- `_consume_opening_bracket` after a successful peek. -/
theorem consumeOpeningL_eq {l : Lexer} {t : Token} (h : l.peek = .ok t) :
    consumeOpeningL l = (.ok (), ⟨l.tokens, l.position + 1⟩) := by
  simp only [consumeOpeningL, Lexer.get_next_token, h]

/-- `_consume_closing_bracket` when the consumed token has the right
kind. -/
theorem consumeClosingL_eq_ok {l : Lexer} {t : Token} (h : l.peek = .ok t)
    (hk : t.token_type = TokenType.CLOSING_BRACKET) :
    consumeClosingL l = (.ok (), ⟨l.tokens, l.position + 1⟩) := by
  simp only [consumeClosingL, Lexer.get_next_token, h, hk, if_true]

/-- `_consume_closing_bracket` when the consumed token does not have kind
`CLOSING_BRACKET`: the raise happens after the cursor was advanced. -/
theorem consumeClosingL_eq_err {l : Lexer} {t : Token} (h : l.peek = .ok t)
    (hk : t.token_type ≠ TokenType.CLOSING_BRACKET) :
    consumeClosingL l =
      (.error (.parsing ⟨t, l.position + 1⟩), ⟨l.tokens, l.position + 1⟩) := by
  simp only [consumeClosingL, Lexer.get_next_token, h, hk, if_neg, if_false]

/-- The optional factor tail when the next token is a factor: the counts are
multiplied (via `cmul_one`, also when the factor is 1 and the loop is
skipped). -/
theorem applyFactorPart_eq_factor {c : Counter} {l : Lexer} {t : Token}
    (h : l.peek = .ok t) (hk : t.token_type = TokenType.FACTOR) :
    applyFactorPart c l =
      (.ok (cmul c (digitsToNat t.value.data)), ⟨l.tokens, l.position + 1⟩) := by
  simp only [applyFactorPart, h, hk, if_true, parseFactorL_eq h]
  by_cases h1 : digitsToNat t.value.data = 1
  · simp [h1, cmul_one]
  · simp [h1]

/-- The optional factor tail when the next token is not a factor: counts and
cursor are unchanged. -/
theorem applyFactorPart_eq_nofactor {c : Counter} {l : Lexer} {t : Token}
    (h : l.peek = .ok t) (hk : t.token_type ≠ TokenType.FACTOR) :
    applyFactorPart c l = (.ok c, l) := by
  simp only [applyFactorPart, h, hk, if_neg, if_false]

/-- `_parse_atom` leaves the backing token list unchanged. -/
theorem parseAtomL_tokens (l : Lexer) : (parseAtomL l).2.tokens = l.tokens := by
  unfold parseAtomL Lexer.get_next_token
  cases l.peek <;> rfl

/-- `_parse_factor` leaves the backing token list unchanged. -/
theorem parseFactorL_tokens (l : Lexer) : (parseFactorL l).2.tokens = l.tokens := by
  unfold parseFactorL Lexer.get_next_token
  cases l.peek <;> rfl

/-- `_consume_opening_bracket` leaves the backing token list unchanged. -/
theorem consumeOpeningL_tokens (l : Lexer) : (consumeOpeningL l).2.tokens = l.tokens := by
  unfold consumeOpeningL Lexer.get_next_token
  cases l.peek <;> rfl

/-- `_consume_closing_bracket` leaves the backing token list unchanged. -/
theorem consumeClosingL_tokens (l : Lexer) : (consumeClosingL l).2.tokens = l.tokens := by
  unfold consumeClosingL Lexer.get_next_token
  cases l.peek with
  | error e => rfl
  | ok t =>
    dsimp only
    by_cases hk : t.token_type = TokenType.CLOSING_BRACKET
    · rw [if_pos hk]
    · rw [if_neg hk]

/-- The optional factor tail leaves the backing token list unchanged. -/
theorem applyFactorPart_tokens (c : Counter) (l : Lexer) :
    (applyFactorPart c l).2.tokens = l.tokens := by
  unfold applyFactorPart
  cases hp : l.peek with
  | error e => rfl
  | ok t =>
    dsimp only
    by_cases hk : t.token_type = TokenType.FACTOR
    · rw [if_pos hk, parseFactorL_eq hp]
      dsimp only
      by_cases h1 : digitsToNat t.value.data ≠ 1
      · rw [if_pos h1]
      · rw [if_neg h1]
    · rw [if_neg hk]

/-- The recursive descent leaves the backing token list unchanged: only the
cursor moves. -/
theorem parseMG_tokens : ∀ (f : Nat) (tag : Bool) (l : Lexer),
    (parseMG f tag l).2.tokens = l.tokens := by
  intro f
  induction f with
  | zero => intro tag l; rfl
  | succ f ih =>
    intro tag l
    cases tag with
    | true =>
      rw [parseMG_succ_true]
      cases hp : l.peek with
      | error e => rfl
      | ok t =>
        dsimp only
        by_cases hk : t.token_type = TokenType.OPENING_BRACKET ∨
            t.token_type = TokenType.ATOM
        · rw [if_pos hk]
          rcases hG : parseMG f false l with ⟨rg, l₁⟩
          have hl₁ : l₁.tokens = l.tokens := by
            have := ih false l
            rw [hG] at this
            exact this
          cases rg with
          | error e => exact hl₁
          | ok g =>
            dsimp only
            cases hp₂ : l₁.peek with
            | error e => exact hl₁
            | ok t₂ =>
              dsimp only
              by_cases hk₂ : t₂.token_type = TokenType.OPENING_BRACKET ∨
                  t₂.token_type = TokenType.ATOM
              · rw [if_pos hk₂]
                rcases hM : parseMG f true l₁ with ⟨rm, l₂⟩
                have hl₂ : l₂.tokens = l₁.tokens := by
                  have := ih true l₁
                  rw [hM] at this
                  exact this
                cases rm with
                | error e => rw [hl₂, hl₁]
                | ok m => dsimp only; rw [hl₂, hl₁]
              · rw [if_neg hk₂]
                exact hl₁
        · rw [if_neg hk]
    | false =>
      rw [parseMG_succ_false]
      cases hp : l.peek with
      | error e => rfl
      | ok t =>
        dsimp only
        by_cases hk : t.token_type = TokenType.OPENING_BRACKET
        · rw [if_pos hk, consumeOpeningL_eq hp]
          dsimp only
          rcases hM : parseMG f true ⟨l.tokens, l.position + 1⟩ with ⟨rm, l₂⟩
          have hl₂ : l₂.tokens = l.tokens := by
            have := ih true ⟨l.tokens, l.position + 1⟩
            rw [hM] at this
            exact this
          cases rm with
          | error e => exact hl₂
          | ok c =>
            dsimp only
            rcases hC : consumeClosingL l₂ with ⟨rc, l₃⟩
            have hl₃ : l₃.tokens = l₂.tokens := by
              have := consumeClosingL_tokens l₂
              rw [hC] at this
              exact this
            cases rc with
            | error e => rw [hl₃, hl₂]
            | ok u =>
              dsimp only
              rw [applyFactorPart_tokens c l₃, hl₃, hl₂]
        · rw [if_neg hk]
          by_cases ha : t.token_type = TokenType.ATOM
          · rw [if_pos ha, parseAtomL_eq hp]
            dsimp only
            rw [applyFactorPart_tokens [(t.value, 1)] ⟨l.tokens, l.position + 1⟩]
          · rw [if_neg ha]

/-- A successful peek at a non-`EOF` token means the cursor is in range. -/
theorem peek_ok_ne_eof_pos {l : Lexer} {t : Token} (h : l.peek = .ok t)
    (hk : t.token_type ≠ TokenType.EOF) : l.position < l.tokens.length := by
  obtain ⟨T, p⟩ := l
  exact (lexer_peek_ok_ne_eof h hk).1

/-- The optional factor tail never moves the cursor beyond the token list
(given it starts within bounds). -/
theorem applyFactorPart_ok_bound {c c' : Counter} {l l' : Lexer}
    (h : applyFactorPart c l = (.ok c', l')) (hp : l.position ≤ l.tokens.length) :
    l'.position ≤ l.tokens.length := by
  unfold applyFactorPart at h
  cases hpk : l.peek with
  | error e => rw [hpk] at h; simp at h
  | ok t =>
    rw [hpk] at h
    dsimp only at h
    by_cases hk : t.token_type = TokenType.FACTOR
    · rw [if_pos hk, parseFactorL_eq hpk] at h
      have hlt : l.position < l.tokens.length :=
        peek_ok_ne_eof_pos hpk (by rw [hk]; intro habs; cases habs)
      dsimp only at h
      by_cases h1 : digitsToNat t.value.data ≠ 1
      · rw [if_pos h1] at h
        cases h
        simpa using hlt
      · rw [if_neg h1] at h
        cases h
        simpa using hlt
    · rw [if_neg hk] at h
      cases h
      exact hp

/-- On success, the recursive descent leaves the cursor within the token
list: every consumed token was peeked first, and only in-range peeks yield
consumable (non-`EOF`-typed or closing) tokens. -/
theorem parseMG_ok_bound : ∀ (f : Nat) (tag : Bool) (l : Lexer) (c : Counter) (l' : Lexer),
    parseMG f tag l = (.ok c, l') → l'.position ≤ l.tokens.length := by
  intro f
  induction f with
  | zero => intro tag l c l' h; simp [parseMG] at h
  | succ f ih =>
    intro tag l c l' h
    cases tag with
    | true =>
      rw [parseMG_succ_true] at h
      cases hp : l.peek with
      | error e => rw [hp] at h; simp at h
      | ok t =>
        rw [hp] at h
        dsimp only at h
        by_cases hk : t.token_type = TokenType.OPENING_BRACKET ∨
            t.token_type = TokenType.ATOM
        · rw [if_pos hk] at h
          rcases hG : parseMG f false l with ⟨rg, l₁⟩
          rw [hG] at h
          have htok₁ : l₁.tokens = l.tokens := by
            have := parseMG_tokens f false l
            rw [hG] at this
            exact this
          cases rg with
          | error e => simp at h
          | ok g =>
            dsimp only at h
            cases hp₂ : l₁.peek with
            | error e => rw [hp₂] at h; simp at h
            | ok t₂ =>
              rw [hp₂] at h
              dsimp only at h
              by_cases hk₂ : t₂.token_type = TokenType.OPENING_BRACKET ∨
                  t₂.token_type = TokenType.ATOM
              · rw [if_pos hk₂] at h
                rcases hM : parseMG f true l₁ with ⟨rm, l₂⟩
                rw [hM] at h
                cases rm with
                | error e => simp at h
                | ok m =>
                  dsimp only at h
                  cases h
                  have := ih true l₁ m l' hM
                  rwa [htok₁] at this
              · rw [if_neg hk₂] at h
                cases h
                exact ih false l g l' hG
        · rw [if_neg hk] at h
          simp at h
    | false =>
      rw [parseMG_succ_false] at h
      cases hp : l.peek with
      | error e => rw [hp] at h; simp at h
      | ok t =>
        rw [hp] at h
        dsimp only at h
        by_cases hk : t.token_type = TokenType.OPENING_BRACKET
        · rw [if_pos hk, consumeOpeningL_eq hp] at h
          dsimp only at h
          rcases hM : parseMG f true ⟨l.tokens, l.position + 1⟩ with ⟨rm, l₂⟩
          rw [hM] at h
          have htok₂ : l₂.tokens = l.tokens := by
            have := parseMG_tokens f true ⟨l.tokens, l.position + 1⟩
            rw [hM] at this
            exact this
          cases rm with
          | error e => simp at h
          | ok cm =>
            dsimp only at h
            rcases hC : consumeClosingL l₂ with ⟨rc, l₃⟩
            rw [hC] at h
            cases rc with
            | error e => simp at h
            | ok u =>
              dsimp only at h
              unfold consumeClosingL Lexer.get_next_token at hC
              cases hp₃ : l₂.peek with
              | error e => rw [hp₃] at hC; simp at hC
              | ok t₃ =>
                rw [hp₃] at hC
                dsimp only at hC
                by_cases hk₃ : t₃.token_type = TokenType.CLOSING_BRACKET
                · rw [if_pos hk₃] at hC
                  cases hC
                  have hlt₂ : l₂.position < l₂.tokens.length :=
                    peek_ok_ne_eof_pos hp₃ (by rw [hk₃]; intro habs; cases habs)
                  have := applyFactorPart_ok_bound h (by simpa using hlt₂)
                  simp only at this
                  rw [htok₂] at this hlt₂
                  exact this
                · rw [if_neg hk₃] at hC
                  simp at hC
        · rw [if_neg hk] at h
          by_cases ha : t.token_type = TokenType.ATOM
          · rw [if_pos ha, parseAtomL_eq hp] at h
            dsimp only at h
            have hlt : l.position < l.tokens.length :=
              peek_ok_ne_eof_pos hp (by rw [ha]; intro habs; cases habs)
            have := applyFactorPart_ok_bound h (by simpa using hlt)
            simpa using this
          · rw [if_neg ha] at h
            simp at h

/-! ### Embedding a parse run into a larger token list -/

/-- Boundary condition for embedding: the first token after the embedded
segment, if any, tokenizes successfully to something that can neither start
a group (`ATOM`/`OPENING_BRACKET`) nor be consumed as a `FACTOR`. -/
def tokenBoundaryOk (post : List String) : Prop :=
  ∀ s, post.head? = some s → ∃ tb : Token, tokenize s = .ok tb ∧
    tb.token_type ≠ TokenType.ATOM ∧ tb.token_type ≠ TokenType.OPENING_BRACKET ∧
    tb.token_type ≠ TokenType.FACTOR

/-- Indexing inside the embedded segment. -/
theorem embed_getElem (pre T post : List String) {r : Nat} (hr : r < T.length) :
    (pre ++ T ++ post)[pre.length + r]? = T[r]? := by
  rw [List.append_assoc, List.getElem?_append_right (by omega), Nat.add_sub_cancel_left]
  exact List.getElem?_append_left hr

/-- Peeking inside the embedded segment agrees with peeking in the original
run. -/
theorem embed_peek_lt (pre T post : List String) {r : Nat} (hr : r < T.length) :
    Lexer.peek ⟨pre ++ T ++ post, pre.length + r⟩ = Lexer.peek ⟨T, r⟩ := by
  unfold Lexer.peek
  rw [show (⟨pre ++ T ++ post, pre.length + r⟩ : Lexer).tokens = pre ++ T ++ post from rfl,
    show (⟨pre ++ T ++ post, pre.length + r⟩ : Lexer).position = pre.length + r from rfl,
    embed_getElem pre T post hr]

/-- Peeking right after the embedded segment yields a token that cannot
start a group and is not a factor. -/
theorem embed_peek_boundary (pre T post : List String) (hb : tokenBoundaryOk post) :
    ∃ tb : Token, Lexer.peek ⟨pre ++ T ++ post, pre.length + T.length⟩ = .ok tb ∧
      tb.token_type ≠ TokenType.ATOM ∧ tb.token_type ≠ TokenType.OPENING_BRACKET ∧
      tb.token_type ≠ TokenType.FACTOR := by
  cases hpost : post with
  | nil =>
    refine ⟨⟨"", TokenType.EOF⟩, ?_, by simp, by simp, by simp⟩
    subst hpost
    exact lexer_peek_ge (by simp)
  | cons s rest =>
    subst hpost
    obtain ⟨tb, htb, h1, h2, h3⟩ := hb s rfl
    refine ⟨tb, ?_, h1, h2, h3⟩
    unfold Lexer.peek
    dsimp only
    have hix : (pre ++ T ++ s :: rest)[pre.length + T.length]? = some s := by
      rw [List.append_assoc, List.getElem?_append_right (by omega),
        Nat.add_sub_cancel_left, List.getElem?_append_right (by omega), Nat.sub_self]
      simp
    rw [hix]
    exact htb

/-- Embedding the optional factor tail. -/
theorem applyFactorPart_embed {c0 c' : Counter} {T : List String} {r q : Nat}
    (pre post : List String) (hb : tokenBoundaryOk post) (hr : r ≤ T.length)
    (h : applyFactorPart c0 ⟨T, r⟩ = (.ok c', ⟨T, q⟩)) :
    applyFactorPart c0 ⟨pre ++ T ++ post, pre.length + r⟩ =
      (.ok c', ⟨pre ++ T ++ post, pre.length + q⟩) := by
  unfold applyFactorPart at h ⊢
  cases hpk : Lexer.peek ⟨T, r⟩ with
  | error e => rw [hpk] at h; simp at h
  | ok t =>
    rw [hpk] at h
    dsimp only at h
    by_cases hk : t.token_type = TokenType.FACTOR
    · have hlt : r < T.length :=
        peek_ok_ne_eof_pos hpk (by rw [hk]; intro habs; cases habs)
      have hpe : Lexer.peek ⟨pre ++ T ++ post, pre.length + r⟩ = .ok t := by
        rw [embed_peek_lt pre T post hlt]; exact hpk
      rw [hpe]
      dsimp only
      rw [if_pos hk, parseFactorL_eq hpe]
      rw [if_pos hk, parseFactorL_eq hpk] at h
      dsimp only at h ⊢
      by_cases h1 : digitsToNat t.value.data ≠ 1
      · rw [if_pos h1] at h ⊢
        simp only [Prod.mk.injEq, Except.ok.injEq, Lexer.mk.injEq] at h
        obtain ⟨hc, _, hq⟩ := h
        rw [hc, ← hq, Nat.add_assoc]
      · rw [if_neg h1] at h ⊢
        simp only [Prod.mk.injEq, Except.ok.injEq, Lexer.mk.injEq] at h
        obtain ⟨hc, _, hq⟩ := h
        rw [hc, ← hq, Nat.add_assoc]
    · rw [if_neg hk] at h
      simp only [Prod.mk.injEq, Except.ok.injEq, Lexer.mk.injEq] at h
      obtain ⟨hc, _, hq⟩ := h
      rcases Nat.lt_or_ge r T.length with hlt | hge
      · have hpe : Lexer.peek ⟨pre ++ T ++ post, pre.length + r⟩ = .ok t := by
          rw [embed_peek_lt pre T post hlt]; exact hpk
        rw [hpe]
        dsimp only
        rw [if_neg hk, hc, ← hq]
      · have hre : r = T.length := by omega
        subst hre
        obtain ⟨tb, hpb, _, _, hb3⟩ := embed_peek_boundary pre T post hb
        rw [hpb]
        dsimp only
        rw [if_neg hb3, hc, ← hq]

/-- Embedding lemma: a successful molecule/group parse over tokens `T`
starting at cursor `p` runs identically (same counter, same relative end
cursor) inside `pre ++ T ++ post`, provided the first token of `post` can
neither start a group nor be a factor, and at least as much fuel is
available.  This captures both locality (the parser reads only the tokens
it consumes plus one lookahead) and fuel monotonicity. -/
theorem parseMG_embed : ∀ (f f' : Nat) (tag : Bool) (pre T post : List String)
    (p q : Nat) (c : Counter), f ≤ f' → tokenBoundaryOk post →
    parseMG f tag ⟨T, p⟩ = (.ok c, ⟨T, q⟩) →
    parseMG f' tag ⟨pre ++ T ++ post, pre.length + p⟩ =
      (.ok c, ⟨pre ++ T ++ post, pre.length + q⟩) := by
  intro f
  induction f with
  | zero => intro f' tag pre T post p q c _ _ h; simp [parseMG] at h
  | succ f ih =>
    intro f' tag pre T post p q c hle hb h
    cases f' with
    | zero => omega
    | succ f'' =>
      have hle' : f ≤ f'' := by omega
      cases tag with
      | true =>
        rw [parseMG_succ_true] at h
        rw [parseMG_succ_true]
        cases hp : Lexer.peek ⟨T, p⟩ with
        | error e => rw [hp] at h; simp at h
        | ok t =>
          rw [hp] at h
          dsimp only at h
          by_cases hk : t.token_type = TokenType.OPENING_BRACKET ∨
              t.token_type = TokenType.ATOM
          · rw [if_pos hk] at h
            have hkne : t.token_type ≠ TokenType.EOF := by
              rcases hk with h' | h' <;> rw [h'] <;> intro habs <;> cases habs
            have hplt : p < T.length := peek_ok_ne_eof_pos hp hkne
            have hpe : Lexer.peek ⟨pre ++ T ++ post, pre.length + p⟩ = .ok t := by
              rw [embed_peek_lt pre T post hplt]; exact hp
            rw [hpe]
            dsimp only
            rw [if_pos hk]
            rcases hG : parseMG f false ⟨T, p⟩ with ⟨rg, l₁⟩
            rw [hG] at h
            cases rg with
            | error e => simp at h
            | ok g =>
              dsimp only at h
              obtain ⟨T₁, q₁⟩ := l₁
              have hT₁ : T₁ = T := by
                have := parseMG_tokens f false ⟨T, p⟩
                rw [hG] at this
                exact this
              subst T₁
              have hq₁le : q₁ ≤ T.length := parseMG_ok_bound f false ⟨T, p⟩ g ⟨T, q₁⟩ hG
              have hGe := ih f'' false pre T post p q₁ g hle' hb hG
              rw [hGe]
              dsimp only
              cases hp₂ : Lexer.peek ⟨T, q₁⟩ with
              | error e => rw [hp₂] at h; simp at h
              | ok t₂ =>
                rw [hp₂] at h
                dsimp only at h
                by_cases hk₂ : t₂.token_type = TokenType.OPENING_BRACKET ∨
                    t₂.token_type = TokenType.ATOM
                · rw [if_pos hk₂] at h
                  have hkne₂ : t₂.token_type ≠ TokenType.EOF := by
                    rcases hk₂ with h' | h' <;> rw [h'] <;> intro habs <;> cases habs
                  have hqlt : q₁ < T.length := peek_ok_ne_eof_pos hp₂ hkne₂
                  have hpe₂ : Lexer.peek ⟨pre ++ T ++ post, pre.length + q₁⟩ = .ok t₂ := by
                    rw [embed_peek_lt pre T post hqlt]; exact hp₂
                  rw [hpe₂]
                  dsimp only
                  rw [if_pos hk₂]
                  rcases hM : parseMG f true ⟨T, q₁⟩ with ⟨rm, l₂⟩
                  rw [hM] at h
                  cases rm with
                  | error e => simp at h
                  | ok m =>
                    dsimp only at h
                    simp only [Prod.mk.injEq, Except.ok.injEq] at h
                    obtain ⟨hc, hl₂⟩ := h
                    subst hl₂
                    have hMe := ih f'' true pre T post q₁ q m hle' hb hM
                    rw [hMe]
                    dsimp only
                    rw [hc]
                · rw [if_neg hk₂] at h
                  simp only [Prod.mk.injEq, Except.ok.injEq, Lexer.mk.injEq] at h
                  obtain ⟨hc, _, hq⟩ := h
                  rcases Nat.lt_or_ge q₁ T.length with hqlt | hqge
                  · have hpe₂ : Lexer.peek ⟨pre ++ T ++ post, pre.length + q₁⟩ = .ok t₂ := by
                      rw [embed_peek_lt pre T post hqlt]; exact hp₂
                    rw [hpe₂]
                    dsimp only
                    rw [if_neg hk₂, hc, ← hq]
                  · have hqe : q₁ = T.length := by omega
                    subst hqe
                    obtain ⟨tb, hpb, hb1, hb2, _⟩ := embed_peek_boundary pre T post hb
                    rw [hpb]
                    dsimp only
                    rw [if_neg (by rintro (h' | h') <;> [exact hb2 h'; exact hb1 h']), hc, ← hq]
          · rw [if_neg hk] at h
            simp at h
      | false =>
        rw [parseMG_succ_false] at h
        rw [parseMG_succ_false]
        cases hp : Lexer.peek ⟨T, p⟩ with
        | error e => rw [hp] at h; simp at h
        | ok t =>
          rw [hp] at h
          dsimp only at h
          by_cases hk : t.token_type = TokenType.OPENING_BRACKET
          · rw [if_pos hk, consumeOpeningL_eq hp] at h
            dsimp only at h
            have hplt : p < T.length :=
              peek_ok_ne_eof_pos hp (by rw [hk]; intro habs; cases habs)
            have hpe : Lexer.peek ⟨pre ++ T ++ post, pre.length + p⟩ = .ok t := by
              rw [embed_peek_lt pre T post hplt]; exact hp
            rw [hpe]
            dsimp only
            rw [if_pos hk, consumeOpeningL_eq hpe]
            dsimp only
            rcases hM : parseMG f true ⟨T, p + 1⟩ with ⟨rm, l₂⟩
            rw [hM] at h
            cases rm with
            | error e => simp at h
            | ok cm =>
              dsimp only at h
              obtain ⟨T₂, q₂⟩ := l₂
              have hT₂ : T₂ = T := by
                have := parseMG_tokens f true ⟨T, p + 1⟩
                rw [hM] at this
                exact this
              subst T₂
              have hMe := ih f'' true pre T post (p + 1) q₂ cm hle' hb hM
              rw [Nat.add_assoc pre.length p 1, hMe]
              dsimp only
              rcases hC : consumeClosingL ⟨T, q₂⟩ with ⟨rc, l₃⟩
              rw [hC] at h
              cases rc with
              | error e => simp at h
              | ok u =>
                dsimp only at h
                unfold consumeClosingL Lexer.get_next_token at hC
                cases hp₃ : Lexer.peek ⟨T, q₂⟩ with
                | error e => rw [hp₃] at hC; simp at hC
                | ok t₃ =>
                  rw [hp₃] at hC
                  dsimp only at hC
                  by_cases hk₃ : t₃.token_type = TokenType.CLOSING_BRACKET
                  · rw [if_pos hk₃] at hC
                    simp only [Prod.mk.injEq] at hC
                    obtain ⟨_, hl₃⟩ := hC
                    subst hl₃
                    have hqlt₃ : q₂ < T.length :=
                      peek_ok_ne_eof_pos hp₃ (by rw [hk₃]; intro habs; cases habs)
                    have hpe₃ : Lexer.peek ⟨pre ++ T ++ post, pre.length + q₂⟩ = .ok t₃ := by
                      rw [embed_peek_lt pre T post hqlt₃]; exact hp₃
                    rw [consumeClosingL_eq_ok hpe₃ hk₃]
                    dsimp only
                    rw [Nat.add_assoc pre.length q₂ 1]
                    exact applyFactorPart_embed pre post hb (by omega) h
                  · rw [if_neg hk₃] at hC
                    simp at hC
          · rw [if_neg hk] at h
            by_cases ha : t.token_type = TokenType.ATOM
            · rw [if_pos ha, parseAtomL_eq hp] at h
              dsimp only at h
              have hplt : p < T.length :=
                peek_ok_ne_eof_pos hp (by rw [ha]; intro habs; cases habs)
              have hpe : Lexer.peek ⟨pre ++ T ++ post, pre.length + p⟩ = .ok t := by
                rw [embed_peek_lt pre T post hplt]; exact hp
              rw [hpe]
              dsimp only
              rw [if_neg hk, if_pos ha, parseAtomL_eq hpe]
              dsimp only
              rw [Nat.add_assoc pre.length p 1]
              exact applyFactorPart_embed pre post hb (by omega) h
            · rw [if_neg ha] at h
              simp at h

/-- A successful `_parse_molecule` returns a counter built by `+=` (hence
stripped of non-positive entries by `_keep_positive`). -/
theorem parseMG_true_ok_shape {f : Nat} {l : Lexer} {c : Counter} {l' : Lexer}
    (h : parseMG f true l = (.ok c, l')) :
    ∃ a b, c = ciadd a b ∧ (a.map Prod.fst).Nodup := by
  cases f with
  | zero => simp [parseMG] at h
  | succ f =>
    rw [parseMG_succ_true] at h
    cases hp : l.peek with
    | error e => rw [hp] at h; simp at h
    | ok t =>
      rw [hp] at h
      dsimp only at h
      by_cases hk : t.token_type = TokenType.OPENING_BRACKET ∨
          t.token_type = TokenType.ATOM
      · rw [if_pos hk] at h
        rcases hG : parseMG f false l with ⟨rg, l₁⟩
        rw [hG] at h
        cases rg with
        | error e => simp at h
        | ok g =>
          dsimp only at h
          cases hp₂ : l₁.peek with
          | error e => rw [hp₂] at h; simp at h
          | ok t₂ =>
            rw [hp₂] at h
            dsimp only at h
            by_cases hk₂ : t₂.token_type = TokenType.OPENING_BRACKET ∨
                t₂.token_type = TokenType.ATOM
            · rw [if_pos hk₂] at h
              rcases hM : parseMG f true l₁ with ⟨rm, l₂⟩
              rw [hM] at h
              cases rm with
              | error e => simp at h
              | ok m =>
                dsimp only at h
                simp only [Prod.mk.injEq, Except.ok.injEq] at h
                exact ⟨ciadd [] g, m, h.1.symm, ciadd_nodupKeys (by simp)⟩
            · rw [if_neg hk₂] at h
              simp only [Prod.mk.injEq, Except.ok.injEq] at h
              exact ⟨[], g, h.1.symm, by simp⟩
      · rw [if_neg hk] at h
        simp at h

/-- The optional factor tail does not change the key list. -/
theorem applyFactorPart_ok_keys {c c' : Counter} {l l' : Lexer}
    (h : applyFactorPart c l = (.ok c', l')) : c'.map Prod.fst = c.map Prod.fst := by
  unfold applyFactorPart at h
  cases hpk : l.peek with
  | error e => rw [hpk] at h; simp at h
  | ok t =>
    rw [hpk] at h
    dsimp only at h
    by_cases hk : t.token_type = TokenType.FACTOR
    · rw [if_pos hk, parseFactorL_eq hpk] at h
      dsimp only at h
      by_cases h1 : digitsToNat t.value.data ≠ 1
      · rw [if_pos h1] at h
        simp only [Prod.mk.injEq, Except.ok.injEq] at h
        rw [← h.1, cmul_keys]
      · rw [if_neg h1] at h
        simp only [Prod.mk.injEq, Except.ok.injEq] at h
        rw [h.1]
    · rw [if_neg hk] at h
      simp only [Prod.mk.injEq, Except.ok.injEq] at h
      rw [h.1]

/-- Every key of a successful molecule/group parse is the value of an
all-alphabetic token of the backing sequence (it was consumed by
`_parse_atom`). -/
theorem parseMG_ok_keys : ∀ (f : Nat) (tag : Bool) (l : Lexer) (c : Counter) (l' : Lexer),
    parseMG f tag l = (.ok c, l') →
    ∀ x ∈ c.map Prod.fst, x ∈ l.tokens ∧ pyIsAlpha x = true := by
  intro f
  induction f with
  | zero => intro tag l c l' h; simp [parseMG] at h
  | succ f ih =>
    intro tag l c l' h x hx
    cases tag with
    | true =>
      rw [parseMG_succ_true] at h
      cases hp : l.peek with
      | error e => rw [hp] at h; simp at h
      | ok t =>
        rw [hp] at h
        dsimp only at h
        by_cases hk : t.token_type = TokenType.OPENING_BRACKET ∨
            t.token_type = TokenType.ATOM
        · rw [if_pos hk] at h
          rcases hG : parseMG f false l with ⟨rg, l₁⟩
          rw [hG] at h
          have htok₁ : l₁.tokens = l.tokens := by
            have := parseMG_tokens f false l
            rw [hG] at this
            exact this
          cases rg with
          | error e => simp at h
          | ok g =>
            dsimp only at h
            cases hp₂ : l₁.peek with
            | error e => rw [hp₂] at h; simp at h
            | ok t₂ =>
              rw [hp₂] at h
              dsimp only at h
              by_cases hk₂ : t₂.token_type = TokenType.OPENING_BRACKET ∨
                  t₂.token_type = TokenType.ATOM
              · rw [if_pos hk₂] at h
                rcases hM : parseMG f true l₁ with ⟨rm, l₂⟩
                rw [hM] at h
                cases rm with
                | error e => simp at h
                | ok m =>
                  dsimp only at h
                  simp only [Prod.mk.injEq, Except.ok.injEq] at h
                  rw [← h.1] at hx
                  rcases ciadd_keys_mem hx with hx' | hx'
                  · rcases ciadd_keys_mem hx' with hx'' | hx''
                    · simp at hx''
                    · exact ih false l g l₁ hG x hx''
                  · have := ih true l₁ m l₂ hM x hx'
                    rwa [htok₁] at this
              · rw [if_neg hk₂] at h
                simp only [Prod.mk.injEq, Except.ok.injEq] at h
                rw [← h.1] at hx
                rcases ciadd_keys_mem hx with hx' | hx'
                · simp at hx'
                · exact ih false l g l₁ hG x hx'
        · rw [if_neg hk] at h
          simp at h
    | false =>
      rw [parseMG_succ_false] at h
      cases hp : l.peek with
      | error e => rw [hp] at h; simp at h
      | ok t =>
        rw [hp] at h
        dsimp only at h
        by_cases hk : t.token_type = TokenType.OPENING_BRACKET
        · rw [if_pos hk, consumeOpeningL_eq hp] at h
          dsimp only at h
          rcases hM : parseMG f true ⟨l.tokens, l.position + 1⟩ with ⟨rm, l₂⟩
          rw [hM] at h
          cases rm with
          | error e => simp at h
          | ok cm =>
            dsimp only at h
            rcases hC : consumeClosingL l₂ with ⟨rc, l₃⟩
            rw [hC] at h
            cases rc with
            | error e => simp at h
            | ok u =>
              dsimp only at h
              rw [applyFactorPart_ok_keys h] at hx
              exact ih true ⟨l.tokens, l.position + 1⟩ cm l₂ hM x hx
        · rw [if_neg hk] at h
          by_cases ha : t.token_type = TokenType.ATOM
          · rw [if_pos ha, parseAtomL_eq hp] at h
            dsimp only at h
            rw [applyFactorPart_ok_keys h] at hx
            simp only [List.map_cons, List.map_nil, List.mem_singleton] at hx
            subst hx
            have hlt : l.position < l.tokens.length :=
              peek_ok_ne_eof_pos hp (by rw [ha]; intro habs; cases habs)
            obtain ⟨T, p⟩ := l
            rw [lexer_peek_lt hlt] at hp
            refine ⟨?_, tokenize_ok_value hp ▸ tokenize_ok_atom hp ha⟩
            rw [tokenize_ok_value hp]
            exact List.getElem_mem hlt
          · rw [if_neg ha] at h
            simp at h

/-! ### Entry-point helpers -/

/-- The lexical shape of an atom symbol: one uppercase letter optionally
followed by one lowercase letter (`[A-Z][a-z]?`). -/
def isAtomShape (s : String) : Bool :=
  match s.data with
  | [c] => c.isUpper
  | [c, d] => c.isUpper && d.isLower
  | _ => false

/-- Eliminating a successful `parse_formula` run on a fresh parser: the
molecule phase succeeded with the same counter and consumed the whole token
sequence. -/
theorem parseFormulaStr_ok_elim {s : String} {r : Counter}
    (h : parseFormulaStr s = .ok r) :
    parseMoleculeL (formulaFuel (Lexer.init s)) (Lexer.init s) =
      (.ok r, ⟨scanTokens s.data, (scanTokens s.data).length⟩) := by
  unfold parseFormulaStr Parser.init Parser.parse_formula at h
  unfold parseMoleculeL at h ⊢
  dsimp only at h
  rcases hM : parseMG (formulaFuel (Lexer.init s)) true (Lexer.init s) with ⟨rm, l'⟩
  rw [hM] at h
  cases rm with
  | error e => simp at h
  | ok c =>
    dsimp only at h
    cases hp : l'.peek with
    | error e => rw [hp] at h; simp at h
    | ok t =>
      rw [hp] at h
      dsimp only at h
      by_cases hk : t.token_type = TokenType.EOF
      · rw [if_pos hk] at h
        dsimp only at h
        cases Except.ok.inj h
        obtain ⟨T', q⟩ := l'
        have hT' : T' = scanTokens s.data := by
          have := parseMG_tokens (formulaFuel (Lexer.init s)) true (Lexer.init s)
          rw [hM] at this
          exact this
        subst T'
        have hqle : q ≤ (scanTokens s.data).length :=
          parseMG_ok_bound _ true (Lexer.init s) _ _ hM
        rcases Nat.lt_or_ge q (scanTokens s.data).length with hlt | hge
        · exfalso
          rw [lexer_peek_lt hlt] at hp
          obtain ⟨t', ht', _, hne⟩ :=
            scanTokens_tokenize_ok (List.getElem_mem hlt)
          rw [ht'] at hp
          cases Except.ok.inj hp
          exact hne hk
        · have hqe : q = (scanTokens s.data).length := by omega
          rw [hqe]
      · rw [if_neg hk] at h
        simp at h

/-- The trailing-token check of `parse_formula`: if the molecule phase
succeeds but a non-`EOF` token remains, the call raises with that token and
the current (unadvanced) cursor position, after having cached the partial
result. -/
theorem parse_formula_trailing {l : Lexer} {c : Counter} {l' : Lexer} {t : Token}
    (hM : parseMoleculeL (formulaFuel l) l = (.ok c, l'))
    (hp : l'.peek = .ok t) (hk : t.token_type ≠ TokenType.EOF) :
    Parser.parse_formula ⟨l, none⟩ =
      (.error (.parsing ⟨t, l'.position⟩), ⟨l', some c⟩) := by
  unfold Parser.parse_formula
  dsimp only
  rw [hM]
  dsimp only
  rw [hp]
  dsimp only
  rw [if_neg hk]

/-! ### Claim theorems -/

/-- C3: for every string `s`, `tokenize` classifies the empty string as
`EOF`, an all-alphabetic string as `ATOM`, an all-decimal string as
`FACTOR`, an accepted opening-bracket character as `OPENING_BRACKET`, an
accepted closing-bracket character as `CLOSING_BRACKET` — in each success
case the returned token's value is `s` — and fails with an invalid-token
error carrying `s` on any other string. -/
theorem claim_C3_tokenize_classification (s : String) :
    (s = "" → tokenize s = .ok ⟨s, TokenType.EOF⟩) ∧
    (pyIsAlpha s = true → tokenize s = .ok ⟨s, TokenType.ATOM⟩) ∧
    (pyIsDecimal s = true → tokenize s = .ok ⟨s, TokenType.FACTOR⟩) ∧
    ((s = "(" ∨ s = "\x7b" ∨ s = "[") →
      tokenize s = .ok ⟨s, TokenType.OPENING_BRACKET⟩) ∧
    ((s = ")" ∨ s = "\x7d" ∨ s = "]") →
      tokenize s = .ok ⟨s, TokenType.CLOSING_BRACKET⟩) ∧
    (s ≠ "" → pyIsAlpha s = false → pyIsDecimal s = false →
      (s ≠ "(" ∧ s ≠ "\x7b" ∧ s ≠ "[" ∧ s ≠ ")" ∧ s ≠ "\x7d" ∧ s ≠ "]") →
      tokenize s = .error ⟨s⟩) := by
  refine ⟨?_, tokenize_alpha, tokenize_decimal, ?_, ?_, ?_⟩
  · intro h; subst h; rfl
  · rintro (h | h | h) <;> subst h <;> rfl
  · rintro (h | h | h) <;> subst h <;> rfl
  · intro h1 h2 h3 ⟨n1, n2, n3, n4, n5, n6⟩
    simp [tokenize, h1, h2, h3, n1, n2, n3, n4, n5, n6]

/-- Witness for C3 at concrete inputs of each class. -/
theorem claim_C3_witness :
    tokenize "" = .ok ⟨"", TokenType.EOF⟩ ∧
    tokenize "He" = .ok ⟨"He", TokenType.ATOM⟩ ∧
    tokenize "42" = .ok ⟨"42", TokenType.FACTOR⟩ ∧
    tokenize "[" = .ok ⟨"[", TokenType.OPENING_BRACKET⟩ ∧
    tokenize "]" = .ok ⟨"]", TokenType.CLOSING_BRACKET⟩ ∧
    tokenize "+" = .error ⟨"+"⟩ :=
  ⟨(claim_C3_tokenize_classification "").1 rfl,
   (claim_C3_tokenize_classification "He").2.1 (by decide),
   (claim_C3_tokenize_classification "42").2.2.1 (by decide),
   (claim_C3_tokenize_classification "[").2.2.2.1 (Or.inr (Or.inr rfl)),
   (claim_C3_tokenize_classification "]").2.2.2.2.1 (Or.inr (Or.inr rfl)),
   (claim_C3_tokenize_classification "+").2.2.2.2.2 (by decide) (by decide) (by decide)
     ⟨by decide, by decide, by decide, by decide, by decide, by decide⟩⟩

/-- C6: for every lexer built by the constructor and every cursor position,
`peek` never fails: in range it returns the token classified from the
backing substring at that index, out of range it returns the end-of-input
token synthesized from the empty string.  (In the embedding `peek` is a pure
function of the lexer and returns no updated state, mirroring that the
source method never modifies `position`.) -/
theorem claim_C6_peek_total (formula : String) (p : Nat) :
    (∃ t : Token, (Lexer.mk (scanTokens formula.data) p).peek = .ok t) ∧
    (∀ h : p < (scanTokens formula.data).length,
      (Lexer.mk (scanTokens formula.data) p).peek =
        tokenize ((scanTokens formula.data).get ⟨p, h⟩)) ∧
    ((scanTokens formula.data).length ≤ p →
      (Lexer.mk (scanTokens formula.data) p).peek = .ok ⟨"", TokenType.EOF⟩) := by
  refine ⟨?_, ?_, fun h => lexer_peek_ge h⟩
  · by_cases hp : p < (scanTokens formula.data).length
    · obtain ⟨t, ht, _, _⟩ := scanTokens_tokenize_ok (List.getElem_mem hp)
      exact ⟨t, by rw [lexer_peek_lt hp]; exact ht⟩
    · exact ⟨⟨"", TokenType.EOF⟩, lexer_peek_ge (by omega)⟩
  · intro h
    exact lexer_peek_lt h

/-- Witness for C6: an in-range peek and an out-of-range peek on a concrete
lexer. -/
theorem claim_C6_witness :
    ((Lexer.mk (scanTokens "H2O".data) 1).peek =
      tokenize ((scanTokens "H2O".data).get ⟨1, by decide⟩)) ∧
    ((Lexer.mk (scanTokens "H2O".data) 5).peek = .ok ⟨"", TokenType.EOF⟩) :=
  ⟨(claim_C6_peek_total "H2O" 1).2.1 (by decide),
   (claim_C6_peek_total "H2O" 5).2.2 (by decide)⟩

/-- C7: characters matched by no alternative of the lexical pattern are
silently dropped — they produce no token and no lexer error — and in
particular `"H2 O"` lexes to the same token sequence as `"H2O"` and both
parse to the same mapping. -/
theorem claim_C7_silent_drop :
    (∀ (c : Char) (cs : List Char), c.isUpper = false → c.isDigit = false →
      isBracketChar c = false → scanTokens (c :: cs) = scanTokens cs) ∧
    scanTokens "H2 O".data = scanTokens "H2O".data ∧
    parseFormulaStr "H2 O" = parseFormulaStr "H2O" ∧
    parseFormulaStr "H2O" = .ok [("H", 2), ("O", 1)] := by
  exact ⟨fun c cs hu hd hb => scanTokens_skip hu hd hb, rfl, rfl, rfl⟩

/-- Witness for C7: dropping a concrete space character. -/
theorem claim_C7_witness : scanTokens (' ' :: "O".data) = scanTokens "O".data :=
  claim_C7_silent_drop.1 ' ' "O".data (by decide) (by decide) (by decide)

/-- C8: closing a bracketed group checks only the token *kind*
`CLOSING_BRACKET`, never which bracket character it is; hence the
character-mismatched `"(OH]"` parses successfully to the same mapping as
`"(OH)"`. -/
theorem claim_C8_closing_kind_only :
    (∀ (l : Lexer) (t : Token), l.peek = .ok t →
      t.token_type = TokenType.CLOSING_BRACKET →
      consumeClosingL l = (.ok (), ⟨l.tokens, l.position + 1⟩)) ∧
    parseFormulaStr "(OH]" = parseFormulaStr "(OH)" ∧
    parseFormulaStr "(OH]" = .ok [("O", 1), ("H", 1)] :=
  ⟨fun _ _ h hk => consumeClosingL_eq_ok h hk, rfl, rfl⟩

/-- Witness for C8: consuming a `]` closing bracket succeeds regardless of
the opener. -/
theorem claim_C8_witness : consumeClosingL ⟨["]"], 0⟩ = (.ok (), ⟨["]"], 1⟩) :=
  claim_C8_closing_kind_only.1 ⟨["]"], 0⟩ ⟨"]", TokenType.CLOSING_BRACKET⟩ rfl rfl

/-- C2: the complex nested formula parses successfully to exactly the
documented mapping. -/
theorem claim_C2_complex_formula :
    parseFormulaStr "Mg2[CH4\x7bNNi2(Li2O4)5\x7d14]3" =
      .ok [("Mg", 2), ("C", 3), ("H", 12), ("N", 42), ("Ni", 84), ("Li", 420),
        ("O", 840)] := rfl

/-- C9: `parse_formula` parses exactly one molecule and then requires the
next token to be `EOF`; any remaining token (for example the stray closing
bracket of `"H2(OH))2"`) raises a grammar error carrying that token and the
current cursor position, without consuming the offending token (the returned
lexer still sits at that position). -/
theorem claim_C9_trailing_token_error :
    (∀ (l : Lexer) (c : Counter) (l' : Lexer) (t : Token),
      parseMoleculeL (formulaFuel l) l = (.ok c, l') →
      l'.peek = .ok t → t.token_type ≠ TokenType.EOF →
      Parser.parse_formula ⟨l, none⟩ =
        (.error (.parsing ⟨t, l'.position⟩), ⟨l', some c⟩)) ∧
    parseFormulaStr "H2(OH))2" =
      .error (.parsing ⟨⟨")", TokenType.CLOSING_BRACKET⟩, 6⟩) :=
  ⟨fun _ _ _ _ hM hp hk => parse_formula_trailing hM hp hk, rfl⟩

/-- Witness for C9: the full outcome on `"H2(OH))2"`, derived by applying
the trailing-token part at the concrete molecule result. -/
theorem claim_C9_witness :
    Parser.parse_formula ⟨Lexer.init "H2(OH))2", none⟩ =
      (.error (.parsing ⟨⟨")", TokenType.CLOSING_BRACKET⟩, 6⟩),
        ⟨⟨scanTokens "H2(OH))2".data, 6⟩, some [("H", 3), ("O", 1)]⟩) :=
  claim_C9_trailing_token_error.1 (Lexer.init "H2(OH))2") [("H", 3), ("O", 1)]
    ⟨scanTokens "H2(OH))2".data, 6⟩ ⟨")", TokenType.CLOSING_BRACKET⟩ rfl rfl
    (by decide)

/-- C10: the `_consume_closing_bracket` error site raises with position one
more than the offending token's index (the token is consumed before the
raise, and the returned lexer is advanced), while the other grammar-error
sites — molecule start, group start, and the trailing-token check — raise
with the exact index of the offending, still-unconsumed token (the returned
lexer is unchanged). -/
theorem claim_C10_error_positions :
    (∀ (l : Lexer) (t : Token), l.peek = .ok t →
      t.token_type ≠ TokenType.CLOSING_BRACKET →
      consumeClosingL l =
        (.error (.parsing ⟨t, l.position + 1⟩), ⟨l.tokens, l.position + 1⟩)) ∧
    (∀ (f : Nat) (l : Lexer) (t : Token), l.peek = .ok t →
      ¬(t.token_type = TokenType.OPENING_BRACKET ∨
        t.token_type = TokenType.ATOM) →
      parseMoleculeL (f + 1) l = (.error (.parsing ⟨t, l.position⟩), l)) ∧
    (∀ (f : Nat) (l : Lexer) (t : Token), l.peek = .ok t →
      t.token_type ≠ TokenType.OPENING_BRACKET → t.token_type ≠ TokenType.ATOM →
      parseGroupL (f + 1) l = (.error (.parsing ⟨t, l.position⟩), l)) ∧
    (∀ (l : Lexer) (c : Counter) (l' : Lexer) (t : Token),
      parseMoleculeL (formulaFuel l) l = (.ok c, l') →
      l'.peek = .ok t → t.token_type ≠ TokenType.EOF →
      Parser.parse_formula ⟨l, none⟩ =
        (.error (.parsing ⟨t, l'.position⟩), ⟨l', some c⟩)) := by
  refine ⟨?_, ?_, ?_, fun _ _ _ _ hM hp hk => parse_formula_trailing hM hp hk⟩
  · intro l t h hk
    exact consumeClosingL_eq_err h hk
  · intro f l t h hk
    unfold parseMoleculeL
    rw [parseMG_succ_true, h]
    dsimp only
    rw [if_neg hk]
  · intro f l t h hk ha
    unfold parseGroupL
    rw [parseMG_succ_false, h]
    dsimp only
    rw [if_neg hk, if_neg ha]

/-- Witness for C10 at concrete inputs: a missing closing bracket
(position one past the consumed token), and the exact-position sites. -/
theorem claim_C10_witness :
    consumeClosingL ⟨["H"], 0⟩ =
      (.error (.parsing ⟨⟨"H", TokenType.ATOM⟩, 1⟩), ⟨["H"], 1⟩) ∧
    parseMoleculeL 1 ⟨[")"], 0⟩ =
      (.error (.parsing ⟨⟨")", TokenType.CLOSING_BRACKET⟩, 0⟩), ⟨[")"], 0⟩) ∧
    parseGroupL 1 ⟨["5"], 0⟩ =
      (.error (.parsing ⟨⟨"5", TokenType.FACTOR⟩, 0⟩), ⟨["5"], 0⟩) ∧
    Parser.parse_formula ⟨Lexer.init "H)", none⟩ =
      (.error (.parsing ⟨⟨")", TokenType.CLOSING_BRACKET⟩, 1⟩),
        ⟨⟨["H", ")"], 1⟩, some [("H", 1)]⟩) :=
  ⟨claim_C10_error_positions.1 ⟨["H"], 0⟩ ⟨"H", TokenType.ATOM⟩ rfl (by decide),
   claim_C10_error_positions.2.1 0 ⟨[")"], 0⟩ ⟨")", TokenType.CLOSING_BRACKET⟩ rfl
     (by decide),
   claim_C10_error_positions.2.2.1 0 ⟨["5"], 0⟩ ⟨"5", TokenType.FACTOR⟩ rfl
     (by decide) (by decide),
   claim_C10_error_positions.2.2.2 (Lexer.init "H)") [("H", 1)] ⟨["H", ")"], 1⟩
     ⟨")", TokenType.CLOSING_BRACKET⟩ rfl rfl (by decide)⟩

/-- C1 (counterexample to the claim as stated): on input `"H)"` the first
`parse_formula` call raises a grammar error, but — because
`self._result = dict(self._parse_molecule())` runs before the EOF check —
the partial mapping was cached, so the second call on the same instance
returns `{H: 1}` instead of raising the same error again. -/
theorem claim_C1_counterexample :
    (Parser.parse_formula ⟨Lexer.init "H)", none⟩).1 =
      .error (.parsing ⟨⟨")", TokenType.CLOSING_BRACKET⟩, 1⟩) ∧
    (Parser.parse_formula ((Parser.parse_formula ⟨Lexer.init "H)", none⟩).2)).1 =
      .ok [("H", 1)] := ⟨rfl, rfl⟩

/-- C1 (amended): once `parse_formula` has *returned successfully*, calling
it again on the resulting parser state returns the identical cached mapping
without re-parsing.  (Raised errors are not cached this way: after a
trailing-token error the partial mapping is cached and returned, and after a
molecule-phase error nothing is cached and the call re-parses from the
advanced cursor.) -/
theorem claim_C1_success_cached (p : Parser) (r : Counter) (p' : Parser)
    (h : Parser.parse_formula p = (.ok r, p')) :
    Parser.parse_formula p' = (.ok r, p') := by
  unfold Parser.parse_formula at h
  cases hres : p.result with
  | some r0 =>
    rw [hres] at h
    dsimp only at h
    simp only [Prod.mk.injEq, Except.ok.injEq] at h
    obtain ⟨hr, hp'⟩ := h
    subst hp'
    unfold Parser.parse_formula
    rw [hres, hr]
  | none =>
    rw [hres] at h
    dsimp only at h
    rcases hM : parseMoleculeL (formulaFuel p.lexer) p.lexer with ⟨rm, l'⟩
    rw [hM] at h
    cases rm with
    | error e => simp at h
    | ok c =>
      dsimp only at h
      cases hp : l'.peek with
      | error e => rw [hp] at h; simp at h
      | ok t =>
        rw [hp] at h
        dsimp only at h
        by_cases hk : t.token_type = TokenType.EOF
        · rw [if_pos hk] at h
          simp only [Prod.mk.injEq, Except.ok.injEq] at h
          obtain ⟨hr, hp'⟩ := h
          subst hr
          rw [← hp']
          rfl
        · rw [if_neg hk] at h
          simp at h

/-- Witness for the amended C1: a second call after a successful parse of
`"H"` returns the cached result. -/
theorem claim_C1_witness :
    Parser.parse_formula ((Parser.parse_formula ⟨Lexer.init "H", none⟩).2) =
      (.ok [("H", 1)], (Parser.parse_formula ⟨Lexer.init "H", none⟩).2) :=
  claim_C1_success_cached ⟨Lexer.init "H", none⟩ [("H", 1)]
    ((Parser.parse_formula ⟨Lexer.init "H", none⟩).2) rfl

/-- C4: whenever `parse_formula` succeeds, every value of the returned
mapping is strictly positive (the `+=` of `_parse_molecule` strips
non-positive counts via `Counter._keep_positive`, even if a zero factor
produced them), the keys are unique, and every key has the lexical shape of
an atom symbol (`[A-Z][a-z]?`). -/
theorem claim_C4_result_invariants (s : String) (r : Counter)
    (h : parseFormulaStr s = .ok r) :
    (∀ kv ∈ r, 0 < kv.2) ∧ (r.map Prod.fst).Nodup ∧
    (∀ kv ∈ r, isAtomShape kv.1 = true) := by
  have hM := parseFormulaStr_ok_elim h
  obtain ⟨a, b, hshape, hnodupa⟩ := parseMG_true_ok_shape hM
  refine ⟨?_, ?_, ?_⟩
  · intro kv hkv
    rw [hshape] at hkv
    exact ciadd_pos hkv
  · rw [hshape]
    exact ciadd_nodupKeys hnodupa
  · intro kv hkv
    obtain ⟨hmem, halpha⟩ := parseMG_ok_keys _ true (Lexer.init s) r _ hM kv.1
      (List.mem_map_of_mem Prod.fst hkv)
    rcases scanFuel_shapes s.data.length s.data kv.1 hmem with
      ⟨c, hck, hu⟩ | ⟨c, d, hck, hu, hl⟩ | ⟨hne, hall⟩ | ⟨c, hck, hb⟩
    · rw [hck]
      simp [isAtomShape, hu]
    · rw [hck]
      simp [isAtomShape, hu, hl]
    · exfalso
      have hdec : pyIsDecimal kv.1 = true := by
        cases hd : kv.1.data with
        | nil => exact absurd hd hne
        | cons c cs' =>
          rw [hd] at hall
          simp [pyIsDecimal, hd, hall]
      rw [pyIsDecimal_not_pyIsAlpha hdec] at halpha
      cases halpha
    · exfalso
      rw [hck] at halpha
      simp [pyIsAlpha, isBracketChar_not_isAlpha hb] at halpha

/-- Witness for C4 on a concrete successful parse. -/
theorem claim_C4_witness :
    (∀ kv ∈ ([("H", 2), ("O", 1)] : Counter), 0 < kv.2) ∧
    ((([("H", 2), ("O", 1)] : Counter).map Prod.fst).Nodup) ∧
    (∀ kv ∈ ([("H", 2), ("O", 1)] : Counter), isAtomShape kv.1 = true) :=
  claim_C4_result_invariants "H2O" [("H", 2), ("O", 1)] rfl

/-- Scanning a list whose head is a bracket character emits that single
character as a token and continues. -/
theorem scanTokens_bracket_cons {c : Char} {cs : List Char} (hu : c.isUpper = false)
    (hd : c.isDigit = false) (hb : isBracketChar c = true) :
    scanTokens (c :: cs) = String.mk [c] :: scanTokens cs := by
  show scanFuel (cs.length + 1) (c :: cs) = _
  rw [scanFuel_succ_cons, if_neg (by simp [hu]), if_neg (by simp [hd]), if_pos hb]
  rfl

/-- C5 (amended: the factor must be nonzero): for every well-formed formula
`m` whose parse yields the map `c`, and every factor literal `d` accepted by
the lexer whose integer value is at least 1, parsing `"(" ++ m ++ ")" ++ d`
succeeds and yields `c` with every value multiplied by that factor.  (For
the zero factor the entries are stripped instead; see the counterexample.) -/
theorem claim_C5_multiplicative (m d : String) (c : Counter)
    (hne : d.data ≠ []) (hdig : d.data.all Char.isDigit = true)
    (hpos : 1 ≤ digitsToNat d.data)
    (hm : parseFormulaStr m = .ok c) :
    parseFormulaStr ("(" ++ m ++ ")" ++ d) = .ok (cmul c (digitsToNat d.data)) := by
  have hM := parseFormulaStr_ok_elim hm
  set T := scanTokens m.data with hT
  obtain ⟨a, b, hshape, hnodupa⟩ := parseMG_true_ok_shape hM
  have hcpos : ∀ kv ∈ c, 0 < kv.2 := by
    intro kv hkv
    rw [hshape] at hkv
    exact ciadd_pos hkv
  have hcnodup : (c.map Prod.fst).Nodup := by
    rw [hshape]
    exact ciadd_nodupKeys hnodupa
  have hdd : pyIsDecimal d = true := by
    cases hd : d.data with
    | nil => exact absurd hd hne
    | cons x xs =>
      rw [hd] at hdig
      simp [pyIsDecimal, hd, hdig]
  have hbnd : tokenBoundaryOk [")", d] := by
    intro s hs
    simp only [List.head?_cons, Option.some.injEq] at hs
    subst hs
    exact ⟨⟨")", TokenType.CLOSING_BRACKET⟩, rfl, by decide, by decide, by decide⟩
  -- the token sequence of the wrapped string
  have hW : scanTokens ("(" ++ m ++ ")" ++ d).data = ["("] ++ T ++ [")", d] := by
    have hdata : ("(" ++ m ++ ")" ++ d).data = '(' :: (m.data ++ ')' :: d.data) := by
      simp [String.data_append]
    rw [hdata, scanTokens_bracket_cons (by decide) (by decide) (by decide),
      scanTokens_append (by
        intro x hx
        simp only [List.head?_cons, Option.some.injEq] at hx
        subst hx
        exact ⟨by decide, by decide⟩),
      scanTokens_bracket_cons (by decide) (by decide) (by decide),
      scanTokens_digits hne hdig, ← hT]
    rfl
  -- the in-range peeks of the wrapped parse
  have hpk0 : Lexer.peek ⟨["("] ++ T ++ [")", d], 0⟩ =
      .ok ⟨"(", TokenType.OPENING_BRACKET⟩ := by
    unfold Lexer.peek
    dsimp only
    rw [List.append_assoc, List.getElem?_append_left (by simp)]
    rfl
  have hpkClose : Lexer.peek ⟨["("] ++ T ++ [")", d], 1 + T.length⟩ =
      .ok ⟨")", TokenType.CLOSING_BRACKET⟩ := by
    unfold Lexer.peek
    dsimp only
    rw [List.append_assoc, List.getElem?_append_right (by simp),
      show 1 + T.length - (["("] : List String).length = T.length from by simp,
      List.getElem?_append_right (by omega), Nat.sub_self]
    rfl
  have hpkD : Lexer.peek ⟨["("] ++ T ++ [")", d], 1 + T.length + 1⟩ =
      .ok ⟨d, TokenType.FACTOR⟩ := by
    unfold Lexer.peek
    dsimp only
    rw [List.append_assoc, List.getElem?_append_right (by simp),
      show 1 + T.length + 1 - (["("] : List String).length = T.length + 1 from by simp; omega,
      List.getElem?_append_right (by omega),
      show T.length + 1 - T.length = 1 from by omega]
    show tokenize d = _
    rw [tokenize_decimal hdd]
  -- the group step of the wrapped parse
  have hgrp : parseMG (2 * T.length + 7) false ⟨["("] ++ T ++ [")", d], 0⟩ =
      (.ok (cmul c (digitsToNat d.data)), ⟨["("] ++ T ++ [")", d], T.length + 3⟩) := by
    rw [show (2 * T.length + 7 : Nat) = (2 * T.length + 6) + 1 from rfl,
      parseMG_succ_false, hpk0]
    dsimp only
    rw [if_pos rfl, consumeOpeningL_eq hpk0]
    dsimp only
    have hemb := parseMG_embed (formulaFuel (Lexer.init m)) (2 * T.length + 6) true
      ["("] T [")", d] 0 T.length c
      (by rw [show formulaFuel (Lexer.init m) = 2 * T.length + 2 from by rw [hT]; rfl]
          omega)
      hbnd hM
    simp only [List.length_cons, List.length_nil, Nat.add_zero] at hemb
    rw [show (0 : Nat) + 1 = 1 from rfl, hemb]
    dsimp only
    rw [consumeClosingL_eq_ok hpkClose rfl]
    dsimp only
    rw [applyFactorPart_eq_factor hpkD rfl]
    have h3 : 1 + T.length + 1 + 1 = T.length + 3 := by omega
    rw [h3]
  -- assemble `parse_formula` on the wrapped string
  have hposmul : ∀ kv ∈ cmul c (digitsToNat d.data), 0 < kv.2 := by
    intro kv hkv
    rcases List.mem_map.mp hkv with ⟨kv₀, hkv₀, rfl⟩
    exact Nat.mul_pos (hcpos kv₀ hkv₀) hpos
  have hnodupmul : ((cmul c (digitsToNat d.data)).map Prod.fst).Nodup := by
    rw [cmul_keys]
    exact hcnodup
  unfold parseFormulaStr Parser.init Parser.parse_formula Lexer.init
  dsimp only
  rw [hW]
  have hFW : formulaFuel ⟨["("] ++ T ++ [")", d], 0⟩ = (2 * T.length + 7) + 1 := by
    simp [formulaFuel]
    omega
  unfold parseMoleculeL
  rw [hFW, parseMG_succ_true, hpk0]
  dsimp only
  rw [if_pos (Or.inl rfl), hgrp]
  dsimp only
  have hpkEnd : Lexer.peek ⟨["("] ++ T ++ [")", d], T.length + 3⟩ =
      .ok ⟨"", TokenType.EOF⟩ := by
    apply lexer_peek_ge
    simp
  rw [hpkEnd]
  dsimp only
  rw [if_neg (by decide)]
  dsimp only
  rw [hpkEnd]
  dsimp only
  rw [if_pos rfl]
  rw [ciadd_nil hnodupmul hposmul]

/-- Witness for the amended C5: wrapping `"H"` with factor `"3"` yields the
map with every value tripled. -/
theorem claim_C5_witness :
    parseFormulaStr ("(" ++ "H" ++ ")" ++ "3") = .ok (cmul [("H", 1)] 3) :=
  claim_C5_multiplicative "H" "3" [("H", 1)] (by decide) (by decide) (by decide) rfl

/-- Counterexample to C5 as stated: the lexer accepts the factor literal
`"0"`, `"H"` parses to `{H: 1}`, but `"(H)0"` parses to the empty mapping
(the zero counts are stripped by `+=`), which differs from `{H: 1}` with
every value multiplied by 0 (that would be `{H: 0}`). -/
theorem claim_C5_counterexample :
    parseFormulaStr "H" = .ok [("H", 1)] ∧
    "0".data ≠ [] ∧ "0".data.all Char.isDigit = true ∧
    parseFormulaStr ("(" ++ "H" ++ ")" ++ "0") = .ok [] ∧
    cmul [("H", 1)] (digitsToNat "0".data) = [("H", 0)] ∧
    ([] : Counter) ≠ [("H", 0)] :=
  ⟨rfl, by decide, by decide, rfl, rfl, by decide⟩
